import Mathlib

/-!
# Formal verification of the btnx-protocol storage pipeline

This development gives a shallow embedding of the core of the
`btnx-protocol` repository (package `chunker`, package `crypto`, package
`manifest`) and proves the behavioural claims of its specification
against that embedding.

Modelling conventions:

* Byte buffers (`[]byte` in Go) are `List Nat`; where a claim needs the
  bytes to actually be bytes, the hypothesis `∀ b ∈ buf, b < 256` is
  stated explicitly.
* Go `int` values that the code compares against negative bounds
  (`chunk.Index`, `shard.ShardIndex`, `dataSize`, ...) are `Int`.
* Fallible Go functions returning `(T, error)` become `Except E T` with
  an explicit error inductive mirroring the distinct `fmt.Errorf` cases.
* The SHA-256 function of Go's standard library is external to the
  repository; the embedding abstracts it as a parameter
  `hashF : List Nat → String` (modelling `hex(sha256(·))`).  None of the
  proved claims depends on the definition of that function, only on its
  being a function.
* File I/O is externalized: `StreamChunkFile` takes the file's content
  as a list of bytes, `AssembleChunks` returns the bytes written to the
  output file.
-/

set_option maxRecDepth 8192

namespace BTNX

/-- `ChunkSize` from `pkg/chunker/chunker.go`: 1 MiB. -/
def ChunkSize : Nat := 1024 * 1024


/-- `DataShards` from `pkg/chunker/chunker.go`. -/
def DataShards : Nat := 4


/-- `ParityShards` from `pkg/chunker/chunker.go`. -/
def ParityShards : Nat := 2


/-- `TotalShards` from `pkg/chunker/chunker.go`. -/
def TotalShards : Nat := DataShards + ParityShards


/-- The `Chunk` struct of `pkg/chunker/chunker.go`. -/
structure Chunk where
  Index : Int
  Data : List Nat
  Hash : String
  Size : Int
deriving DecidableEq, Repr


/-- The `Shard` struct of `pkg/chunker/chunker.go`. -/
structure Shard where
  ChunkIndex : Int
  ShardIndex : Int
  Data : List Nat
  Hash : String
  Size : Int
deriving DecidableEq, Repr


/-- `VerifyShard` of `pkg/chunker/chunker.go`: recompute the hash of the
shard data and compare with the declared hash. -/
def VerifyShard (hashF : List Nat → String) (data : List Nat) (expectedHash : String) : Bool :=
  hashF data == expectedHash


/-- `VerifyChunk` of `pkg/chunker/chunker.go` (same computation as
`VerifyShard`, kept separate as in the source). -/
def VerifyChunk (hashF : List Nat → String) (data : List Nat) (expectedHash : String) : Bool :=
  hashF data == expectedHash


/-- The reading loop of `StreamChunkFile` (`pkg/chunker/chunker.go`,
lines 60–102): `io.ReadFull` delivers exactly `ChunkSize` bytes, or the
remaining tail at end of file; an empty read is `io.EOF` and produces no
chunk.  `idx` is the running `index` variable of the loop; the channel
of `ChunkResult`s is modelled as the returned list (the error path of
the channel cannot fire for an in-memory source).  `fuel` makes the
recursion structural; every iteration consumes at least one byte, so
any fuel of at least the data length computes the whole loop. -/
def StreamChunkFileAux (hashF : List Nat → String) :
    Nat → Int → List Nat → List Chunk
  | 0, _, _ => []
  | fuel + 1, idx, data =>
    if data = [] then []
    else
      let chunkData := data.take ChunkSize
      { Index := idx, Data := chunkData, Hash := hashF chunkData,
        Size := (chunkData.length : Int) } ::
        StreamChunkFileAux hashF fuel (idx + 1) (data.drop ChunkSize)


/-- `StreamChunkFile` of `pkg/chunker/chunker.go`, applied to the file's
content. -/
def StreamChunkFile (hashF : List Nat → String) (data : List Nat) : List Chunk :=
  StreamChunkFileAux hashF data.length 0 data


/-- The distinct failure cases of `AssembleChunks`
(`pkg/chunker/chunker.go`, lines 227–269). -/
inductive AsmError where
  | outOfBounds (idx : Int)
  | incompleteAssembly (expected : Nat) (got : Nat)
deriving DecidableEq, Repr


/-- `output.WriteAt(data, off)` on a file whose current content is
`file`: bytes before `off` are kept (zero-filled if the file is shorter
than `off`, as POSIX writes past end of file do), `data` overwrites
`[off, off+len(data))`, bytes after are kept. -/
def writeAt (file : List Nat) (off : Nat) (data : List Nat) : List Nat :=
  file.take off ++ List.replicate (off - file.length) 0 ++ data ++
    file.drop (off + data.length)


/-- The receive loop of `AssembleChunks` (`pkg/chunker/chunker.go`):
state is the output file content, the `received` bool slice and the
`uniqueCount` counter; after the stream ends the unique count must equal
`totalChunks`. -/
def AssembleChunksAux (totalChunks : Nat) :
    List Chunk → List Nat → List Bool → Nat → Except AsmError (List Nat)
  | [], file, _, uniqueCount =>
      if uniqueCount ≠ totalChunks then
        .error (.incompleteAssembly totalChunks uniqueCount)
      else .ok file
  | chunk :: rest, file, received, uniqueCount =>
      if chunk.Index < 0 ∨ (totalChunks : Int) ≤ chunk.Index then
        .error (.outOfBounds chunk.Index)
      else if received.getD chunk.Index.toNat false then
        AssembleChunksAux totalChunks rest file received uniqueCount
      else
        AssembleChunksAux totalChunks rest
          (writeAt file (chunk.Index.toNat * ChunkSize) chunk.Data)
          (received.set chunk.Index.toNat true) (uniqueCount + 1)


/-- `AssembleChunks` of `pkg/chunker/chunker.go`: the output file starts
empty (`os.Create` truncates), the chunk stream is consumed in arrival
order, and the final content is returned on success.  `totalChunks` is
a `Nat`: the Go code's `make([]bool, totalChunks)` panics on a negative
count, so only non-negative counts have defined behaviour. -/
def AssembleChunks (chunkStream : List Chunk) (totalChunks : Nat) :
    Except AsmError (List Nat) :=
  AssembleChunksAux totalChunks chunkStream [] (List.replicate totalChunks false) 0


/-- Number of chunks a file of `n` bytes is cut into: `⌈n / ChunkSize⌉`. -/
def numChunks (n : Nat) : Nat := (n + ChunkSize - 1) / ChunkSize


/-- The `i`-th 1 MiB slice of a byte buffer. -/
def chunkSlice (data : List Nat) (i : Nat) : List Nat :=
  (data.drop (i * ChunkSize)).take ChunkSize


/-- The chunk record built for the `i`-th slice of a byte buffer. -/
def sliceChunk (hashF : List Nat → String) (data : List Nat) (i : Nat) : Chunk :=
  { Index := (i : Int), Data := chunkSlice data i,
    Hash := hashF (chunkSlice data i),
    Size := ((chunkSlice data i).length : Int) }


/-- Byte at position `p` of a buffer, 0 beyond the end (the value an
assembled file holds in a region not yet written). -/
def byteAt (l : List Nat) (p : Nat) : Nat := l.getD p 0


/-- The natural numbers below `n`, as a set of `Int` indices. -/
def intRange (n : Nat) : Finset Int := (Finset.range n).image (fun i : Nat => (i : Int))


/-- The set of distinct chunk indices occurring in a delivery stream:
re-deliveries of an index already seen do not enlarge it. -/
def idxSet (stream : List Chunk) : Finset Int :=
  (stream.map (fun c => c.Index)).toFinset


/-- `KeySize` from `pkg/crypto/crypto.go`: 32 bytes. -/
def KeySize : Nat := 32


/-- XChaCha20-Poly1305 nonce size: 24 bytes (`aead.NonceSize()` for the
`chacha20poly1305.NewX` construction used by `pkg/crypto`). -/
def NonceSizeX : Nat := 24


/-- Poly1305 tag size appended by `Seal`: 16 bytes. -/
def Overhead : Nat := 16


/-- The distinct failure cases of `EncryptChunk`/`DecryptChunk`
(`pkg/crypto/crypto.go`). -/
inductive CryptoError where
  | invalidKeySize (got : Nat)
  | ciphertextTooShort (got : Nat)
  | authenticationFailed
deriving DecidableEq, Repr


/-- Modelled from the spec: the AEAD primitive used by `pkg/crypto`
(`chacha20poly1305.NewX`, an external library).  §4.2 of the design:
`Encrypt` "runs an AEAD seal, and returns nonce ‖ ciphertext ‖ tag as
one contiguous buffer".  `Seal(nonce, nonce, plaintext, nil)` prepends
the nonce, encrypts the plaintext by XOR with the cipher's keystream
(`ks key nonce len`), and appends the 16-byte MAC (`macF key nonce ct`).
The keystream and MAC functions are abstract parameters: none of the
proved claims depends on their definitions, only on their output
lengths. -/
def aeadSeal (ks : List Nat → List Nat → Nat → List Nat)
    (macF : List Nat → List Nat → List Nat → List Nat)
    (key nonce plaintext : List Nat) : List Nat :=
  let ct := plaintext.zipWith (fun a b => a ^^^ b) (ks key nonce plaintext.length)
  nonce ++ ct ++ macF key nonce ct


/-- Modelled from the spec: `aead.Open(nil, nonce, ctAndTag, nil)` of the
same external AEAD: rejects buffers shorter than the tag, recomputes the
MAC over the ciphertext part and compares with the trailing tag, and
only on success returns the XOR-decrypted plaintext ("returns plaintext
only if the tag verifies", §4.2). -/
def aeadOpen (ks : List Nat → List Nat → Nat → List Nat)
    (macF : List Nat → List Nat → List Nat → List Nat)
    (key nonce ctAndTag : List Nat) : Except CryptoError (List Nat) :=
  if ctAndTag.length < Overhead then .error .authenticationFailed
  else
    let ct := ctAndTag.take (ctAndTag.length - Overhead)
    let tag := ctAndTag.drop (ctAndTag.length - Overhead)
    if macF key nonce ct == tag then
      .ok (ct.zipWith (fun a b => a ^^^ b) (ks key nonce ct.length))
    else .error .authenticationFailed


/-- `EncryptChunk` of `pkg/crypto/crypto.go`: key-size check, then
`Seal` with a fresh random nonce; the randomness is externalized as the
`nonce` argument (the claims hold for an arbitrary nonce). -/
def EncryptChunk (ks : List Nat → List Nat → Nat → List Nat)
    (macF : List Nat → List Nat → List Nat → List Nat)
    (plaintext key nonce : List Nat) : Except CryptoError (List Nat) :=
  if key.length ≠ KeySize then .error (.invalidKeySize key.length)
  else .ok (aeadSeal ks macF key nonce plaintext)


/-- `DecryptChunk` of `pkg/crypto/crypto.go`: key-size check, minimum
length check against the nonce size, split of the nonce prefix, then
`Open` on the remainder. -/
def DecryptChunk (ks : List Nat → List Nat → Nat → List Nat)
    (macF : List Nat → List Nat → List Nat → List Nat)
    (ciphertext key : List Nat) : Except CryptoError (List Nat) :=
  if key.length ≠ KeySize then .error (.invalidKeySize key.length)
  else if ciphertext.length < NonceSizeX then
    .error (.ciphertextTooShort ciphertext.length)
  else
    aeadOpen ks macF key (ciphertext.take NonceSizeX) (ciphertext.drop NonceSizeX)


/-- `ChunkMeta` of `pkg/manifest/manifest.go`. -/
structure ChunkMeta where
  Index : Int
  Hash : String
  Size : Int
deriving DecidableEq, Repr


/-- The `Manifest` struct of `pkg/manifest/manifest.go`.  `CreatedAt`
(`time.Time` in Go) is modelled by the integer timestamp value that its
serialization carries. -/
structure Manifest where
  Version : String
  BlobID : String
  FileName : String
  FileSize : Int
  OriginalFileHash : String
  ChunkSize : Int
  ChunkCount : Int
  Chunks : List ChunkMeta
  EncryptionKey : String
  CreatedAt : Int
  PublisherAddress : String
deriving DecidableEq, Repr


/-- `generateBlobID` of `pkg/manifest/manifest.go`: `"0x"` plus the hex
of 32 random bytes; the randomness (already hex-encoded) is
externalized. -/
def generateBlobID (randomHex : String) : String := "0x" ++ randomHex


/-- `New` of `pkg/manifest/manifest.go`.  The hex encoder of the
standard library, the random blob id bytes and `time.Now()` are
externalized as the `hexEncode`, `randomHex` and `now` arguments. -/
def New (hexEncode : List Nat → String) (fileName : String) (fileSize : Int)
    (originalHash : String) (chunks : List ChunkMeta) (encKey : List Nat)
    (publisher : String) (randomHex : String) (now : Int) : Manifest :=
  { Version := "1.0"
    BlobID := generateBlobID randomHex
    FileName := fileName
    FileSize := fileSize
    OriginalFileHash := originalHash
    ChunkSize := 1024 * 1024
    ChunkCount := (chunks.length : Int)
    Chunks := chunks
    EncryptionKey := hexEncode encKey
    CreatedAt := now
    PublisherAddress := publisher }


/-- A scalar value of the structured self-describing document
`encoding/json` produces for the manifest: the kinds its string and
integer fields serialize to. -/
inductive JsonPrim where
  | str (s : String)
  | num (n : Int)


/-- A field value of the manifest document: a scalar, or the chunk
table — an array of objects whose fields are scalars (the document's
only nesting; `encoding/json` is external, the document is the model
of its output). -/
inductive Json where
  | prim (p : JsonPrim)
  | arr (xs : List (List (String × JsonPrim)))


/-- The object `json.MarshalIndent` produces for one `ChunkMeta`,
following its field tags. -/
def marshalChunkMeta (c : ChunkMeta) : List (String × JsonPrim) :=
  [("index", .num c.Index), ("hash", .str c.Hash), ("size", .num c.Size)]


/-- The top-level object `json.MarshalIndent` produces for the
manifest, following its field tags (`Save` of
`pkg/manifest/manifest.go`; writing the bytes to the path is
externalized, the document is returned). -/
def Save (m : Manifest) : List (String × Json) :=
  [("version", .prim (.str m.Version)), ("blob_id", .prim (.str m.BlobID)),
   ("file_name", .prim (.str m.FileName)), ("file_size", .prim (.num m.FileSize)),
   ("original_file_hash", .prim (.str m.OriginalFileHash)),
   ("chunk_size", .prim (.num m.ChunkSize)),
   ("chunk_count", .prim (.num m.ChunkCount)),
   ("chunks", .arr (m.Chunks.map marshalChunkMeta)),
   ("encryption_key", .prim (.str m.EncryptionKey)),
   ("created_at", .prim (.num m.CreatedAt)),
   ("publisher_address", .prim (.str m.PublisherAddress))]


/-- Field lookup in a decoded object, as `encoding/json` matches keys. -/
def jsonLookup {α : Type} (fields : List (String × α)) (key : String) : Option α :=
  (fields.find? (fun kv => kv.1 == key)).map (fun kv => kv.2)


/-- Decode a string-valued field of the top-level object. -/
def asStr : Option Json → Except String String
  | some (.prim (.str s)) => .ok s
  | _ => .error "expected string"


/-- Decode a number-valued field of the top-level object. -/
def asNum : Option Json → Except String Int
  | some (.prim (.num n)) => .ok n
  | _ => .error "expected number"


/-- Decode a string-valued field of a chunk object. -/
def asStrP : Option JsonPrim → Except String String
  | some (.str s) => .ok s
  | _ => .error "expected string"


/-- Decode a number-valued field of a chunk object. -/
def asNumP : Option JsonPrim → Except String Int
  | some (.num n) => .ok n
  | _ => .error "expected number"


/-- `json.Unmarshal` of one chunk object into a `ChunkMeta`. -/
def unmarshalChunkMeta (fields : List (String × JsonPrim)) :
    Except String ChunkMeta := do
  let i ← asNumP (jsonLookup fields "index")
  let h ← asStrP (jsonLookup fields "hash")
  let s ← asNumP (jsonLookup fields "size")
  .ok ⟨i, h, s⟩


/-- Decode the chunk table. -/
def asChunks : Option Json → Except String (List ChunkMeta)
  | some (.arr xs) => xs.mapM unmarshalChunkMeta
  | _ => .error "expected array"


/-- `Load` of `pkg/manifest/manifest.go`: `json.Unmarshal` of the
document's top-level object into a `Manifest` (reading the bytes from
the path is externalized, the document is consumed). -/
def Load (fields : List (String × Json)) : Except String Manifest := do
  let v ← asStr (jsonLookup fields "version")
  let b ← asStr (jsonLookup fields "blob_id")
  let fn ← asStr (jsonLookup fields "file_name")
  let fs ← asNum (jsonLookup fields "file_size")
  let ofh ← asStr (jsonLookup fields "original_file_hash")
  let cs ← asNum (jsonLookup fields "chunk_size")
  let cc ← asNum (jsonLookup fields "chunk_count")
  let ch ← asChunks (jsonLookup fields "chunks")
  let ek ← asStr (jsonLookup fields "encryption_key")
  let ca ← asNum (jsonLookup fields "created_at")
  let pa ← asStr (jsonLookup fields "publisher_address")
  .ok ⟨v, b, fn, fs, ofh, cs, cc, ch, ek, ca, pa⟩


/-- `ShardMeta` of the extended `pkg/manifest` (its source is embedded
in `scripts/verify-setup.sh`). -/
structure ShardMeta where
  ChunkIndex : Int
  ShardIndex : Int
  Hash : String
  Size : Int
  FarmerIndex : Int
deriving DecidableEq, Repr


/-- `FarmerInfo` of the extended `pkg/manifest` (its source is embedded
in `scripts/verify-setup.sh`). -/
structure FarmerInfo where
  Index : Int
  Address : String
  Endpoint : String
  Region : String
deriving DecidableEq, Repr


/-- `GetFarmerForShard` of the extended `pkg/manifest` (source embedded
in `scripts/verify-setup.sh`): the farmer at position
`shard.FarmerIndex` of the manifest's farmer directory when
`0 <= FarmerIndex < len(Farmers)`, else nil.  The manifest's `Farmers`
field is passed directly. -/
def GetFarmerForShard (farmers : List FarmerInfo) (s : ShardMeta) : Option FarmerInfo :=
  if 0 ≤ s.FarmerIndex ∧ s.FarmerIndex < (farmers.length : Int) then
    farmers[s.FarmerIndex.toNat]?
  else none

/-- `GetShardsForChunk` of the extended `pkg/manifest` (source embedded
in `scripts/verify-setup.sh`): the shard records whose `ChunkIndex`
matches.  The manifest's `Shards` field is passed directly. -/
def GetShardsForChunk (shards : List ShardMeta) (chunkIndex : Int) : List ShardMeta :=
  shards.filter (fun s => s.ChunkIndex == chunkIndex)


/-- `GetFarmersForChunk` of the extended `pkg/manifest` (source
embedded in `scripts/verify-setup.sh`): over the chunk's shards
(`GetShardsForChunk`), a seen-map keyed by farmer index (the `acc.1`
list) marks each index on first sight and the farmer of each
newly-seen index is appended when `GetFarmerForShard` is non-nil
(`Option.toList`).  The manifest's `Shards` and `Farmers` fields are
passed directly. -/
def GetFarmersForChunk (shards : List ShardMeta) (farmers : List FarmerInfo)
    (chunkIndex : Int) : List FarmerInfo :=
  ((GetShardsForChunk shards chunkIndex).foldl
    (fun (acc : List Int × List FarmerInfo) s =>
      if !(acc.1.contains s.FarmerIndex) then
        (acc.1 ++ [s.FarmerIndex], acc.2 ++ (GetFarmerForShard farmers s).toList)
      else acc)
    ([], [])).2


/-- First-occurrence de-duplication of a list of indices (the reference
meaning of "each appearing once, in order of first appearance").
`fuel` makes the recursion structural. -/
def firstOccurAux : Nat → List Int → List Int
  | _, [] => []
  | 0, _ :: _ => []
  | fuel + 1, x :: xs => x :: firstOccurAux fuel (xs.filter (fun y => y != x))


/-- First-occurrence de-duplication of a list of indices. -/
def firstOccur (l : List Int) : List Int := firstOccurAux l.length l


/-- GF(2^8) multiplication (Russian-peasant loop over the Galois field
polynomial 0x11D = x⁸+x⁴+x³+x²+1); field addition is `^^^`. -/
def gmulAux : Nat → Nat → Nat → Nat → Nat
  | 0, _, _, acc => acc
  | k + 1, a, b, acc =>
      gmulAux k (if 256 ≤ a * 2 then a * 2 ^^^ 285 else a * 2) (b / 2)
        (if b % 2 = 1 then acc ^^^ a else acc)


/-- GF(2^8) product of two bytes. -/
def gmul (a b : Nat) : Nat := gmulAux 8 a b 0


/-- GF(2^8) power (used only with small exponents, to build the
Vandermonde matrix). -/
def gpow (a : Nat) : Nat → Nat
  | 0 => 1
  | n + 1 => gmul a (gpow a n)


/-- GF(2^8) multiplicative inverse `a⁻¹ = a^254` (Fermat), computed by
an explicit addition chain (2, 3, 6, 7, 14, 28, 56, 63, 126, 127,
254). -/
def ginv (a : Nat) : Nat :=
  let a2 := gmul a a
  let a3 := gmul a2 a
  let a6 := gmul a3 a3
  let a7 := gmul a6 a
  let a14 := gmul a7 a7
  let a28 := gmul a14 a14
  let a56 := gmul a28 a28
  let a63 := gmul a56 a7
  let a126 := gmul a63 a63
  let a127 := gmul a126 a
  gmul a127 a127


/-- Matrix entry (matrices are lists of rows over GF(2^8)). -/
def mget (M : List (List Nat)) (i j : Nat) : Nat := (M.getD i []).getD j 0


/-- Determinant of a 3x3 matrix over GF(2^8) by cofactor expansion;
characteristic 2, so there is no sign pattern. -/
def gdet3 : List (List Nat) → Nat
  | [[a, b, c], [d, e, f], [g, h, i]] =>
      gmul a (gmul e i ^^^ gmul f h) ^^^ gmul b (gmul d i ^^^ gmul f g) ^^^
        gmul c (gmul d h ^^^ gmul e g)
  | _ => 0


/-- Determinant of a 4x4 matrix over GF(2^8) by Laplace expansion along
the first row (characteristic 2: no signs). -/
def gdet4 : List (List Nat) → Nat
  | [[a, b, c, d], [e, f, g, h], [i, j, k, l], [m, n, o, p]] =>
      gmul a (gdet3 [[f, g, h], [j, k, l], [n, o, p]]) ^^^
      gmul b (gdet3 [[e, g, h], [i, k, l], [m, o, p]]) ^^^
      gmul c (gdet3 [[e, f, h], [i, j, l], [m, n, p]]) ^^^
      gmul d (gdet3 [[e, f, g], [i, j, k], [m, n, o]])
  | _ => 0


/-- The adjugate of a 4x4 matrix over GF(2^8) scaled by `s`: entry
`(i, j)` is `s` times the determinant of the matrix with row `j` and
column `i` removed (characteristic 2: cofactors carry no signs). -/
def adjScaled (s : Nat) : List (List Nat) → List (List Nat)
  | [[a, b, c, d], [e, f, g, h], [i, j, k, l], [m, n, o, p]] =>
      [[gmul s (gdet3 [[f, g, h], [j, k, l], [n, o, p]]),
        gmul s (gdet3 [[b, c, d], [j, k, l], [n, o, p]]),
        gmul s (gdet3 [[b, c, d], [f, g, h], [n, o, p]]),
        gmul s (gdet3 [[b, c, d], [f, g, h], [j, k, l]])],
       [gmul s (gdet3 [[e, g, h], [i, k, l], [m, o, p]]),
        gmul s (gdet3 [[a, c, d], [i, k, l], [m, o, p]]),
        gmul s (gdet3 [[a, c, d], [e, g, h], [m, o, p]]),
        gmul s (gdet3 [[a, c, d], [e, g, h], [i, k, l]])],
       [gmul s (gdet3 [[e, f, h], [i, j, l], [m, n, p]]),
        gmul s (gdet3 [[a, b, d], [i, j, l], [m, n, p]]),
        gmul s (gdet3 [[a, b, d], [e, f, h], [m, n, p]]),
        gmul s (gdet3 [[a, b, d], [e, f, h], [i, j, l]])],
       [gmul s (gdet3 [[e, f, g], [i, j, k], [m, n, o]]),
        gmul s (gdet3 [[a, b, c], [i, j, k], [m, n, o]]),
        gmul s (gdet3 [[a, b, c], [e, f, g], [m, n, o]]),
        gmul s (gdet3 [[a, b, c], [e, f, g], [i, j, k]])]]
  | _ => []


/-- Inverse of a 4x4 matrix over GF(2^8) via the adjugate scaled by the
inverse of the determinant; only ever evaluated at concrete invertible
matrices. -/
def matInv (M : List (List Nat)) : List (List Nat) :=
  adjScaled (ginv (gdet4 M)) M


/-- The 6×4 Vandermonde matrix `vand[r][c] = r^c` over GF(2^8), as the
codec builds it. -/
def vand : List (List Nat) :=
  (List.range 6).map (fun r => (List.range 4).map (fun c => gpow r c))


/-- Product of a 6×4 by a 4×4 matrix over GF(2^8). -/
def matMul (A B : List (List Nat)) : List (List Nat) :=
  A.map (fun row => (List.range 4).map (fun j =>
    (List.range 4).foldl (fun acc k => acc ^^^ gmul (row.getD k 0) (mget B k j)) 0))


/-- The systematic 6×4 encoding matrix: the Vandermonde matrix
normalized by the inverse of its top square, so that the first four
rows are the identity (data shards are direct partitions) and the last
two rows are the parity coefficients. -/
def encMatrix : List (List Nat) := matMul vand (matInv (vand.take 4))


/-- Parity coefficient row `r` (r = 0, 1) of the encoding matrix. -/
def parityRow (r : Nat) : List Nat :=
  (List.range 4).map (fun c => mget encMatrix (4 + r) c)


/-- Pointwise xor of two byte vectors. -/
def vxor (x y : List Nat) : List Nat := List.zipWith (fun a b => a ^^^ b) x y


/-- The length-4 column vector that is `v` at coordinate `c` and 0
elsewhere. -/
def single (c v : Nat) : List Nat :=
  (List.range 4).map (fun i => if i = c then v else 0)


/-- GF(2^8) dot product of two vectors. -/
def dot : List Nat → List Nat → Nat
  | r :: rs, v :: vs => gmul r v ^^^ dot rs vs
  | _, _ => 0


/-- One encoded column: the four data bytes followed by the two parity
bytes the encoding matrix assigns them. -/
def fullCol (x : List Nat) : List Nat :=
  x ++ [dot (parityRow 0) x, dot (parityRow 1) x]


/-- The sub-matrix of the encoding matrix made of the rows of the first
four present shards (the rows the decoder inverts). -/
def subMat (pres : List Bool) : List (List Nat) :=
  (((List.range 6).filter (fun i => pres.getD i false)).take 4).map
    (fun i => (List.range 4).map (fun c => mget encMatrix i c))


/-- The decode matrix: inverse of the sub-matrix of the first four
present rows. -/
def decodeMat (pres : List Bool) : List (List Nat) := matInv (subMat pres)


/-- One reconstructed column, with the decode matrix `dm` passed
explicitly (it depends only on the presence pattern, so the codec
computes it once per reconstruction, not once per column): present rows
are kept, missing data rows are solved through `dm`, missing parity
rows are re-encoded from the filled data rows. -/
def reconFullColD (dm : List (List Nat)) (pres : List Bool) (y : List Nat) : List Nat :=
  let idxs := ((List.range 6).filter (fun i => pres.getD i false)).take 4
  let ysub := idxs.map (fun i => y.getD i 0)
  let xfill := (List.range 4).map (fun r =>
      if pres.getD r false then y.getD r 0 else dot (dm.getD r []) ysub)
  (List.range 6).map (fun i =>
    if pres.getD i false then y.getD i 0
    else if i < 4 then xfill.getD i 0
    else dot (parityRow (i - 4)) xfill)


/-- One reconstructed column, given the presence pattern `pres` of the
six shards and the six available byte values `y` (entries at absent
positions are never read). -/
def reconFullCol (pres : List Bool) (y : List Nat) : List Nat :=
  reconFullColD (decodeMat pres) pres y


/-- The evaluated systematic encoding matrix: identity on the four data
rows, parity coefficients on the last two. -/
def encLit : List (List Nat) :=
  [[1, 0, 0, 0], [0, 1, 0, 0], [0, 0, 1, 0], [0, 0, 0, 1],
   [27, 28, 18, 20], [28, 27, 20, 18]]


/-- `parityRow` with the evaluated encoding matrix (same function;
stated over the literal so that instances evaluate cheaply). -/
def parityRowL (r : Nat) : List Nat :=
  if r = 0 then [27, 28, 18, 20]
  else if r = 1 then [28, 27, 20, 18]
  else (List.range 4).map (fun c => mget encLit (4 + r) c)


/-- `fullCol` with the evaluated encoding matrix. -/
def fullColL (x : List Nat) : List Nat :=
  x ++ [dot (parityRowL 0) x, dot (parityRowL 1) x]


/-- `reconFullColD` with the evaluated encoding matrix. -/
def reconFullColDL (dm : List (List Nat)) (pres : List Bool) (y : List Nat) : List Nat :=
  let idxs := ((List.range 6).filter (fun i => pres.getD i false)).take 4
  let ysub := idxs.map (fun i => y.getD i 0)
  let xfill := (List.range 4).map (fun r =>
      if pres.getD r false then y.getD r 0 else dot (dm.getD r []) ysub)
  (List.range 6).map (fun i =>
    if pres.getD i false then y.getD i 0
    else if i < 4 then xfill.getD i 0
    else dot (parityRowL (i - 4)) xfill)


/-- The 32 encoded single-bit columns, tabulated: entry `c*8+k` is
`fullColL (single c (2 ^ k))`. -/
def basisTable : List (List Nat) :=
  [[1, 0, 0, 0, 27, 28],
   [2, 0, 0, 0, 54, 56],
   [4, 0, 0, 0, 108, 112],
   [8, 0, 0, 0, 216, 224],
   [16, 0, 0, 0, 173, 221],
   [32, 0, 0, 0, 71, 167],
   [64, 0, 0, 0, 142, 83],
   [128, 0, 0, 0, 1, 166],
   [0, 1, 0, 0, 28, 27],
   [0, 2, 0, 0, 56, 54],
   [0, 4, 0, 0, 112, 108],
   [0, 8, 0, 0, 224, 216],
   [0, 16, 0, 0, 221, 173],
   [0, 32, 0, 0, 167, 71],
   [0, 64, 0, 0, 83, 142],
   [0, 128, 0, 0, 166, 1],
   [0, 0, 1, 0, 18, 20],
   [0, 0, 2, 0, 36, 40],
   [0, 0, 4, 0, 72, 80],
   [0, 0, 8, 0, 144, 160],
   [0, 0, 16, 0, 61, 93],
   [0, 0, 32, 0, 122, 186],
   [0, 0, 64, 0, 244, 105],
   [0, 0, 128, 0, 245, 210],
   [0, 0, 0, 1, 20, 18],
   [0, 0, 0, 2, 40, 36],
   [0, 0, 0, 4, 80, 72],
   [0, 0, 0, 8, 160, 144],
   [0, 0, 0, 16, 93, 61],
   [0, 0, 0, 32, 186, 122],
   [0, 0, 0, 64, 105, 244],
   [0, 0, 0, 128, 210, 245]]


/-- Entry `c*8+k` of the basis table. -/
def basisCol (c k : Nat) : List Nat := basisTable.getD (c * 8 + k) []


/-- The errors of `ShardChunk` and `ReconstructChunk`: each `fmt.Errorf`
of the source, together with the failure modes of the external
Reed-Solomon library as section 4.3 describes them. -/
inductive RSError where
  | sizeMismatch (expected got : Int)
  | splitShortData
  | insufficientShards (got : Nat)
  | invalidDataSize
  | mixedChunks
  | shardVerificationFailed (idx : Int)
  | invalidShardIndex (idx : Int)
  | duplicateShardIndex (idx : Int)
  | reconstructTooFew
  | shardSizeMismatch
  | verifyFailed
  | joinShortData
deriving DecidableEq, Repr


/-- Column `j` of a list of rows. -/
def colAt (rows : List (List Nat)) (j : Nat) : List Nat :=
  rows.map (fun row => row.getD j 0)


/-- Modelled from the spec: the library's `Split` — error on empty
input, else the ciphertext padded with zeros to a multiple of
`DataShards` and cut into `DataShards` equal rows. -/
def rsSplit (data : List Nat) : Except RSError (List (List Nat)) :=
  if data.length = 0 then .error .splitShortData
  else
    let ps := (data.length + DataShards - 1) / DataShards
    let padded := data ++ List.replicate (DataShards * ps - data.length) 0
    .ok ((List.range DataShards).map (fun i => (padded.drop (i * ps)).take ps))


/-- Modelled from the spec: the library's `Encode` — every byte column
of the four data rows is extended to its six-row codeword by the
systematic encoding matrix. -/
def rsEncode (dataRows : List (List Nat)) : List (List Nat) :=
  (List.range TotalShards).map (fun i =>
    (List.range ((dataRows.getD 0 []).length)).map (fun j =>
      (fullCol (colAt dataRows j)).getD i 0))


/-- Modelled from the spec: the library's `Verify` — recompute each
parity byte from the data rows and compare. -/
def rsVerify (rows : List (List Nat)) : Bool :=
  (List.range ((rows.getD 0 []).length)).all (fun j =>
    (List.range ParityShards).all (fun r =>
      (rows.getD (DataShards + r) []).getD j 0
        == dot (parityRow r) (colAt (rows.take DataShards) j)))


/-- Modelled from the spec: the library's `Reconstruct` — at least
`DataShards` present rows of equal size, then every byte column is
re-solved from its present entries through the decode matrix. -/
def rsReconstruct (shardData : List (Option (List Nat))) :
    Except RSError (List (List Nat)) :=
  let present := shardData.filterMap id
  if present.length < DataShards then .error .reconstructTooFew
  else
    let ps := (present.getD 0 []).length
    if present.all (fun s => s.length = ps) then
      let pres := shardData.map Option.isSome
      let filled := shardData.map (fun o => o.getD [])
      .ok ((List.range TotalShards).map (fun i =>
        (List.range ps).map (fun j =>
          (reconFullCol pres (colAt filled j)).getD i 0)))
    else .error .shardSizeMismatch


/-- Modelled from the spec: the library's `Join` — concatenate the data
rows and truncate to the requested size (stripping the code padding);
error if fewer bytes than requested are available. -/
def rsJoin (rows : List (List Nat)) (outSize : Nat) : Except RSError (List Nat) :=
  let dataBytes := (rows.take DataShards).flatten
  if dataBytes.length < outSize then .error .joinShortData
  else .ok (dataBytes.take outSize)


/-- `ShardChunk` of `pkg/chunker/chunker.go`: size check, split, encode,
then one shard record per row with its hash. -/
def ShardChunk (hashF : List Nat → String) (chunk : Chunk) (encryptedData : List Nat) :
    Except RSError (List Shard) :=
  if (encryptedData.length : Int) ≠ chunk.Size then
    .error (.sizeMismatch chunk.Size encryptedData.length)
  else
    rsSplit encryptedData >>= fun dataRows =>
    let rows := rsEncode dataRows
    .ok ((List.range TotalShards).map (fun i : Nat =>
      { ChunkIndex := chunk.Index
        ShardIndex := (i : Int)
        Data := rows.getD i []
        Hash := hashF (rows.getD i [])
        Size := ((rows.getD i []).length : Int) }))


/-- The first loop of `ReconstructChunk`: per shard, in order, the
chunk-index check then the hash check; `none` when every shard passes. -/
def scanShards (hashF : List Nat → String) (expectedChunk : Int) :
    List Shard → Option RSError
  | [] => none
  | s :: rest =>
      if s.ChunkIndex ≠ expectedChunk then some .mixedChunks
      else if ¬ VerifyShard hashF s.Data s.Hash then
        some (.shardVerificationFailed s.ShardIndex)
      else scanShards hashF expectedChunk rest


/-- The second loop of `ReconstructChunk`: place each shard's data at
its index, rejecting out-of-range and duplicate indices. -/
def fillShards : List Shard → List (Option (List Nat)) →
    Except RSError (List (Option (List Nat)))
  | [], acc => .ok acc
  | s :: rest, acc =>
      if s.ShardIndex < 0 ∨ (TotalShards : Int) ≤ s.ShardIndex then
        .error (.invalidShardIndex s.ShardIndex)
      else if (acc.getD s.ShardIndex.toNat none).isSome then
        .error (.duplicateShardIndex s.ShardIndex)
      else fillShards rest (acc.set s.ShardIndex.toNat (some s.Data))


/-- `ReconstructChunk` of `pkg/chunker/chunker.go`. -/
def ReconstructChunk (hashF : List Nat → String) (shards : List Shard)
    (dataSize : Int) : Except RSError (List Nat) :=
  if shards.length < DataShards then .error (.insufficientShards shards.length)
  else if dataSize ≤ 0 then .error .invalidDataSize
  else
    match scanShards hashF ((shards.headD ⟨0, 0, [], "", 0⟩).ChunkIndex) shards with
    | some e => .error e
    | none =>
      fillShards shards (List.replicate TotalShards none) >>= fun shardData =>
      rsReconstruct shardData >>= fun rows =>
      if rsVerify rows then rsJoin rows dataSize.toNat
      else .error .verifyFailed


/-- The per-shard size of a split: ceiling division by `DataShards`. -/
def psOf (n : Nat) : Nat := (n + DataShards - 1) / DataShards


/-- The zero-padded ciphertext a split partitions. -/
def paddedOf (data : List Nat) : List Nat :=
  data ++ List.replicate (DataShards * psOf data.length - data.length) 0


/-- The four data rows a split produces. -/
def dataRowsOf (data : List Nat) : List (List Nat) :=
  (List.range DataShards).map (fun i =>
    ((paddedOf data).drop (i * psOf data.length)).take (psOf data.length))


/-- The six encoded rows of a ciphertext. -/
def rowsOf (data : List Nat) : List (List Nat) := rsEncode (dataRowsOf data)


/-- The six shard records `ShardChunk` produces on success. -/
def shardsOf (hashF : List Nat → String) (chunk : Chunk) (data : List Nat) : List Shard :=
  (List.range TotalShards).map (fun i : Nat =>
    { ChunkIndex := chunk.Index
      ShardIndex := (i : Int)
      Data := (rowsOf data).getD i []
      Hash := hashF ((rowsOf data).getD i [])
      Size := (((rowsOf data).getD i []).length : Int) })


/-- The shard indices delivered in a subset. -/
def subIdxs (sub : List Shard) : List Int := sub.map (fun s => s.ShardIndex)


/-- The six slots of shard data the fill loop produces for a subset. -/
def shardDataOf (sub : List Shard) (data : List Nat) : List (Option (List Nat)) :=
  (List.range 6).map (fun k : Nat =>
    if (k : Int) ∈ subIdxs sub then some ((rowsOf data).getD k []) else none)


/-- The per-shard precondition check of the scan loop: the chunk-index
comparison first, then the hash verification, as the loop body runs
them for one shard. -/
def scanCheck (hashF : List Nat → String) (ec : Int) (s : Shard) : Option RSError :=
  if s.ChunkIndex ≠ ec then some .mixedChunks
  else if ¬ VerifyShard hashF s.Data s.Hash then
    some (.shardVerificationFailed s.ShardIndex)
  else none


theorem numChunks_zero : numChunks 0 = 0 := by decide


theorem numChunks_eq_div_succ (n : Nat) (h : 0 < n) :
    numChunks n = (n - 1) / ChunkSize + 1 := by
  unfold numChunks
  have h1 : n + ChunkSize - 1 = (n - 1) + ChunkSize := by omega
  rw [h1, Nat.add_div_right _ (by decide : 0 < ChunkSize)]


theorem numChunks_sub_chunkSize (n : Nat) (h : 0 < n) :
    numChunks n = numChunks (n - ChunkSize) + 1 := by
  rcases le_or_lt n ChunkSize with hle | hlt
  · have h0 : n - ChunkSize = 0 := by omega
    rw [h0, numChunks_zero, numChunks_eq_div_succ n h, Nat.div_eq_of_lt (by omega)]
  · rw [numChunks_eq_div_succ n h, numChunks_eq_div_succ (n - ChunkSize) (by omega)]
    have h2 : n - 1 = (n - ChunkSize - 1) + ChunkSize := by omega
    rw [h2, Nat.add_div_right _ (by decide : 0 < ChunkSize)]


/-- Closed form of the chunking loop: chunk `i` is the `i`-th 1 MiB
slice of the source, indices counting up from the initial `idx`. -/
theorem streamChunkFileAux_eq (hashF : List Nat → String) :
    ∀ (fuel : Nat) (idx : Int) (data : List Nat), data.length ≤ fuel →
    StreamChunkFileAux hashF fuel idx data =
      (List.range (numChunks data.length)).map (fun i =>
        { Index := idx + (i : Int), Data := chunkSlice data i,
          Hash := hashF (chunkSlice data i),
          Size := ((chunkSlice data i).length : Int) }) := by
  intro fuel
  induction fuel with
  | zero =>
    intro idx data hle
    have hdata : data = [] := List.eq_nil_of_length_eq_zero (by omega)
    subst hdata
    simp [StreamChunkFileAux, numChunks_zero]
  | succ fuel ih =>
    intro idx data hle
    by_cases hdata : data = []
    · subst hdata
      simp [StreamChunkFileAux, numChunks_zero]
    · have hpos : 0 < data.length := List.length_pos.mpr hdata
      have hcs : 0 < ChunkSize := by decide
      rw [StreamChunkFileAux, if_neg hdata,
        ih (idx + 1) (data.drop ChunkSize)
          (by simp only [List.length_drop]; omega),
        List.length_drop, numChunks_sub_chunkSize data.length hpos,
        List.range_succ_eq_map, List.map_cons, List.map_map]
      dsimp only
      congr 1
      · simp [chunkSlice]
      · refine List.map_congr_left (fun a _ => ?_)
        have hslice : chunkSlice (data.drop ChunkSize) a = chunkSlice data (a + 1) := by
          have hmul : ChunkSize + a * ChunkSize = (a + 1) * ChunkSize := by ring
          unfold chunkSlice
          rw [List.drop_drop, hmul]
        have hidx : idx + 1 + (a : Int) = idx + ((a + 1 : Nat) : Int) := by
          push_cast; ring
        simp only [Function.comp_apply, Nat.succ_eq_add_one, hslice, hidx]


theorem StreamChunkFile_eq (hashF : List Nat → String) (data : List Nat) :
    StreamChunkFile hashF data =
      (List.range (numChunks data.length)).map (sliceChunk hashF data) := by
  rw [StreamChunkFile, streamChunkFileAux_eq hashF data.length 0 data le_rfl]
  refine List.map_congr_left (fun i _ => ?_)
  simp [sliceChunk]


theorem length_StreamChunkFile (hashF : List Nat → String) (data : List Nat) :
    (StreamChunkFile hashF data).length = numChunks data.length := by
  rw [StreamChunkFile_eq]
  simp


theorem chunkSlice_length (data : List Nat) (i : Nat) :
    (chunkSlice data i).length = min ChunkSize (data.length - i * ChunkSize) := by
  simp [chunkSlice]


theorem chunkSlice_length_of_not_last (data : List Nat) (i : Nat)
    (h : i + 1 < numChunks data.length) :
    (chunkSlice data i).length = ChunkSize := by
  have hpos : 0 < data.length := by
    by_contra h0
    have h1 : data.length = 0 := by omega
    rw [h1, numChunks_zero] at h
    omega
  rw [numChunks_eq_div_succ data.length hpos] at h
  have hdm := Nat.div_add_mod (data.length - 1) ChunkSize
  rw [chunkSlice_length]
  apply Nat.min_eq_left
  have hcs : ChunkSize = 1048576 := rfl
  simp only [hcs] at h hdm ⊢
  omega


theorem chunkSlice_length_at_last (data : List Nat) (hpos : 0 < data.length) :
    (chunkSlice data (numChunks data.length - 1)).length
      = data.length - (numChunks data.length - 1) * ChunkSize
    ∧ 1 ≤ (chunkSlice data (numChunks data.length - 1)).length
    ∧ (chunkSlice data (numChunks data.length - 1)).length ≤ ChunkSize
    ∧ (data.length % ChunkSize ≠ 0 →
        (chunkSlice data (numChunks data.length - 1)).length
          = data.length % ChunkSize) := by
  have hcs : ChunkSize = 1048576 := rfl
  rw [numChunks_eq_div_succ data.length hpos, chunkSlice_length]
  have hdm := Nat.div_add_mod (data.length - 1) ChunkSize
  have hmod := Nat.mod_lt (data.length - 1) (show 0 < ChunkSize by decide)
  have hdm2 := Nat.div_add_mod data.length ChunkSize
  have hmod2 := Nat.mod_lt data.length (show 0 < ChunkSize by decide)
  rw [hcs] at *
  simp only [Nat.add_sub_cancel]
  omega


/-- **C4**: `StreamChunkFile` yields a finite sequence of chunks whose
indices strictly increase from 0 (chunk `i` has index `i`); every chunk
except possibly the last has size exactly `ChunkSize`; the last chunk
holds between 1 and `ChunkSize` bytes and, when the total length is not
a multiple of `ChunkSize`, exactly the remainder; an empty source yields
the empty sequence (and a non-empty source a non-empty one); each
chunk's `Hash` is the content hash of exactly its delivered bytes and
its `Size` equals the length of its `Data`. -/
theorem streamChunkFile_C4 (hashF : List Nat → String) (data : List Nat) :
    (StreamChunkFile hashF data = [] ↔ data = [])
    ∧ (∀ (i : Nat) (c : Chunk), (StreamChunkFile hashF data)[i]? = some c →
        c.Index = (i : Int))
    ∧ (∀ (i : Nat) (c : Chunk), (StreamChunkFile hashF data)[i]? = some c →
        i + 1 < (StreamChunkFile hashF data).length → c.Data.length = ChunkSize)
    ∧ (∀ c : Chunk, (StreamChunkFile hashF data).getLast? = some c →
        1 ≤ c.Data.length ∧ c.Data.length ≤ ChunkSize ∧
        (data.length % ChunkSize ≠ 0 → c.Data.length = data.length % ChunkSize))
    ∧ (∀ c ∈ StreamChunkFile hashF data, c.Hash = hashF c.Data ∧
        c.Size = (c.Data.length : Int)) := by
  have E := StreamChunkFile_eq hashF data
  have hget : ∀ (i : Nat) (c : Chunk), (StreamChunkFile hashF data)[i]? = some c →
      i < numChunks data.length ∧ c = sliceChunk hashF data i := by
    intro i c hc
    rw [E, List.getElem?_map] at hc
    by_cases hi : i < numChunks data.length
    · rw [List.getElem?_range hi] at hc
      simp at hc
      exact ⟨hi, hc.symm⟩
    · rw [List.getElem?_eq_none (by simpa using hi)] at hc
      simp at hc
  refine ⟨?_, ?_, ?_, ?_, ?_⟩
  · rw [E]
    constructor
    · intro h
      have h0 : numChunks data.length = 0 := by simpa using congrArg List.length h
      rcases Nat.eq_zero_or_pos data.length with h1 | h1
      · exact List.eq_nil_of_length_eq_zero h1
      · rw [numChunks_eq_div_succ data.length h1] at h0
        exact absurd h0 (Nat.succ_ne_zero _)
    · intro h
      subst h
      simp [numChunks_zero]
  · intro i c hc
    rw [(hget i c hc).2]
    rfl
  · intro i c hc hlt
    rw [(hget i c hc).2]
    simp only [sliceChunk]
    exact chunkSlice_length_of_not_last data i
      (by rwa [length_StreamChunkFile] at hlt)
  · intro c hc
    rw [List.getLast?_eq_getElem?] at hc
    have hpos : 0 < data.length := by
      rcases Nat.eq_zero_or_pos data.length with h1 | h1
      · exfalso
        have h2 : data = [] := List.eq_nil_of_length_eq_zero h1
        subst h2
        simp [StreamChunkFile, StreamChunkFileAux] at hc
      · exact h1
    have hn : 0 < numChunks data.length := by
      rw [numChunks_eq_div_succ data.length hpos]; exact Nat.succ_pos _
    have hc2 := hget _ _ hc
    have hlen : (StreamChunkFile hashF data).length - 1 = numChunks data.length - 1 := by
      rw [length_StreamChunkFile]
    rw [hlen] at hc2
    rw [hc2.2]
    simp only [sliceChunk]
    have H := chunkSlice_length_at_last data hpos
    exact ⟨H.2.1, H.2.2.1, H.2.2.2⟩
  · intro c hc
    rw [E] at hc
    rcases List.mem_map.mp hc with ⟨i, _, hi⟩
    rw [← hi]
    exact ⟨rfl, rfl⟩


/-- Witness for C4 at the concrete three-byte file `[10, 20, 30]` with a
concrete hash function. -/
theorem streamChunkFile_C4_witness :
    ((StreamChunkFile (fun l => toString l.length) [10, 20, 30])[0]?.map Chunk.Index
        = some (0 : Int))
    ∧ (∀ c : Chunk,
        (StreamChunkFile (fun l => toString l.length) [10, 20, 30]).getLast? = some c →
        c.Data.length = 3) := by
  have H := streamChunkFile_C4 (fun l => toString l.length) [10, 20, 30]
  constructor
  · have h0 : (StreamChunkFile (fun l => toString l.length) [10, 20, 30])[0]? =
        some { Index := 0, Data := [10, 20, 30], Hash := toString (3 : Nat),
               Size := 3 } := by rfl
    rw [h0]
    rfl
  · intro c hc
    have h3 : ([10, 20, 30] : List Nat).length % ChunkSize = 3 := by rfl
    have := (H.2.2.2.1 c hc).2.2 (by rw [h3]; omega)
    rw [this, h3]


theorem writeAt_length (file : List Nat) (off : Nat) (data : List Nat) :
    (writeAt file off data).length = max file.length (off + data.length) := by
  simp [writeAt]
  omega


theorem byteAt_writeAt (file : List Nat) (off : Nat) (data : List Nat) (p : Nat) :
    byteAt (writeAt file off data) p =
      if p < off then byteAt file p
      else if p < off + data.length then byteAt data (p - off)
      else byteAt file p := by
  unfold byteAt writeAt
  simp only [List.getD_eq_getElem?_getD, List.append_assoc]
  rcases Nat.lt_or_ge p off with h1 | h1
  · rw [if_pos h1]
    rcases Nat.lt_or_ge p file.length with h2 | h2
    · rw [List.getElem?_append_left (by simp; omega)]
      rw [List.getElem?_take]
      rw [if_pos h1]
    · rw [List.getElem?_append]
      rw [if_neg (by simp; omega)]
      rw [List.getElem?_append_left (by simp; omega)]
      rw [List.getElem?_replicate, if_pos (by simp; omega)]
      rw [List.getElem?_eq_none (by omega)]
      rfl
  · rw [if_neg (by omega)]
    have hlen1 : (file.take off ++ List.replicate (off - file.length) 0).length = off := by
      simp
      omega
    have e1 : file.take off ++ (List.replicate (off - file.length) 0 ++ (data ++
        file.drop (off + data.length)))
        = (file.take off ++ List.replicate (off - file.length) 0) ++
          (data ++ file.drop (off + data.length)) := by
      simp [List.append_assoc]
    rw [e1, List.getElem?_append_right (by rw [hlen1]; omega), hlen1]
    rcases Nat.lt_or_ge p (off + data.length) with h2 | h2
    · rw [if_pos h2, List.getElem?_append_left (by omega)]
    · rw [if_neg (by omega), List.getElem?_append_right (by omega : data.length ≤ p - off),
        List.getElem?_drop]
      have e2 : off + data.length + (p - off - data.length) = p := by omega
      rw [e2]


theorem byteAt_chunkSlice (data : List Nat) (i j : Nat)
    (h : j < (chunkSlice data i).length) :
    byteAt (chunkSlice data i) j = byteAt data (i * ChunkSize + j) := by
  unfold byteAt chunkSlice
  rw [chunkSlice_length] at h
  simp only [List.getD_eq_getElem?_getD, chunkSlice, List.getElem?_take,
    if_pos (by omega : j < ChunkSize), List.getElem?_drop]


theorem mem_StreamChunkFile (hashF : List Nat → String) (data : List Nat) (c : Chunk) :
    c ∈ StreamChunkFile hashF data ↔
      ∃ i, i < numChunks data.length ∧ c = sliceChunk hashF data i := by
  rw [StreamChunkFile_eq]
  simp only [List.mem_map, List.mem_range]
  constructor
  · rintro ⟨i, hi, rfl⟩
    exact ⟨i, hi, rfl⟩
  · rintro ⟨i, hi, rfl⟩
    exact ⟨i, hi, rfl⟩


theorem mem_intRange (n : Nat) (j : Nat) : ((j : Int) ∈ intRange n) ↔ j < n := by
  unfold intRange
  simp


theorem intRange_card (n : Nat) : (intRange n).card = n := by
  unfold intRange
  rw [Finset.card_image_of_injective _ (fun a b h => by exact_mod_cast h)]
  exact Finset.card_range n


theorem idxSet_nil : idxSet [] = ∅ := rfl


theorem idxSet_cons (c : Chunk) (rest : List Chunk) :
    idxSet (c :: rest) = insert c.Index (idxSet rest) := by
  simp [idxSet]


/-- Invariant-carrying induction for the assembly loop on an honest
delivery stream: if the already-written state is consistent with the
source file and the remaining stream still covers every missing chunk
index, the loop ends in `.ok` with exactly the source bytes. -/
theorem assembleAux_ok_of_covered (hashF : List Nat → String) (data : List Nat) :
    ∀ (stream : List Chunk) (S : Finset Int) (file : List Nat)
      (received : List Bool) (uc : Nat),
    (∀ c ∈ stream, c ∈ StreamChunkFile hashF data) →
    received.length = numChunks data.length →
    (∀ j : Nat, received.getD j false = true ↔ (j : Int) ∈ S) →
    S ⊆ intRange (numChunks data.length) →
    uc = S.card →
    (∀ p : Nat, p < data.length → ((p / ChunkSize : Nat) : Int) ∈ S →
        byteAt file p = byteAt data p) →
    file.length ≤ data.length →
    (((numChunks data.length - 1 : Nat) : Int) ∈ S → file.length = data.length) →
    intRange (numChunks data.length) ⊆ S ∪ idxSet stream →
    AssembleChunksAux (numChunks data.length) stream file received uc = .ok data := by
  intro stream
  induction stream with
  | nil =>
    intro S file received uc _ hrl henc hsub huc hpt hfl hlast hcov
    have hSeq : S = intRange (numChunks data.length) := by
      apply Finset.Subset.antisymm hsub
      intro x hx
      have h := hcov hx
      rwa [idxSet_nil, Finset.union_empty] at h
    have huc2 : uc = numChunks data.length := by rw [huc, hSeq, intRange_card]
    rw [AssembleChunksAux, if_neg (by simp [huc2])]
    congr 1
    rcases Nat.eq_zero_or_pos (numChunks data.length) with hn | hn
    · have hlen0 : data.length = 0 := by
        by_contra h0
        rw [numChunks_eq_div_succ data.length (by omega)] at hn
        exact absurd hn (Nat.succ_ne_zero _)
      have h1 : file = [] := List.eq_nil_of_length_eq_zero (by omega)
      have h2 : data = [] := List.eq_nil_of_length_eq_zero hlen0
      rw [h1, h2]
    · have hlen_pos : 0 < data.length := by
        by_contra h0
        have h1 : data.length = 0 := by omega
        rw [h1, numChunks_zero] at hn
        omega
      have hfl2 : file.length = data.length := by
        apply hlast
        rw [hSeq, mem_intRange]
        omega
      apply List.ext_getElem hfl2
      intro p h1 h2
      have hq := numChunks_eq_div_succ data.length hlen_pos
      have hdiv : p / ChunkSize < numChunks data.length := by
        have hd : p / ChunkSize ≤ (data.length - 1) / ChunkSize :=
          Nat.div_le_div_right (by omega)
        omega
      have hp := hpt p (by omega) (by rw [hSeq, mem_intRange]; exact hdiv)
      unfold byteAt at hp
      rw [List.getD_eq_getElem?_getD, List.getD_eq_getElem?_getD,
        List.getElem?_eq_getElem h1, List.getElem?_eq_getElem h2] at hp
      simpa using hp
  | cons c rest ih =>
    intro S file received uc hmem hrl henc hsub huc hpt hfl hlast hcov
    obtain ⟨i, hi, hc⟩ := (mem_StreamChunkFile hashF data c).mp (hmem c (by simp))
    have hidx : c.Index = (i : Int) := by rw [hc]; rfl
    have hdat : c.Data = chunkSlice data i := by rw [hc]; rfl
    have htn : c.Index.toNat = i := by rw [hidx]; simp
    simp only [AssembleChunksAux]
    rw [if_neg (by rw [hidx]; omega), htn]
    by_cases hrec : received.getD i false
    · rw [if_pos hrec]
      refine ih S file received uc (fun c' hc' => hmem c' (by simp [hc']))
        hrl henc hsub huc hpt hfl hlast ?_
      intro x hx
      rcases Finset.mem_union.mp (hcov hx) with hS | hI
      · exact Finset.mem_union_left _ hS
      · rw [idxSet_cons] at hI
        rcases Finset.mem_insert.mp hI with rfl | hI2
        · exact Finset.mem_union_left _ (by rw [hidx]; exact (henc i).mp hrec)
        · exact Finset.mem_union_right _ hI2
    · rw [if_neg hrec]
      have hiS : (i : Int) ∉ S := fun hmemS => hrec ((henc i).mpr hmemS)
      have hlen_pos : 0 < data.length := by
        by_contra h0
        have h1 : data.length = 0 := by omega
        rw [h1, numChunks_zero] at hi
        omega
      have hq := numChunks_eq_div_succ data.length hlen_pos
      have hiCS : i * ChunkSize ≤ data.length - 1 := by
        have hd : (data.length - 1) / ChunkSize * ChunkSize ≤ data.length - 1 :=
          Nat.div_mul_le_self _ _
        have h2 : i ≤ (data.length - 1) / ChunkSize := by omega
        have h3 := Nat.mul_le_mul_right ChunkSize h2
        omega
      have hslice_le : i * ChunkSize + (chunkSlice data i).length ≤ data.length := by
        rw [chunkSlice_length]
        have h4 := Nat.min_le_right ChunkSize (data.length - i * ChunkSize)
        omega
      refine ih (insert (↑i) S) _ _ _ (fun c' hc' => hmem c' (by simp [hc']))
        ?_ ?_ ?_ ?_ ?_ ?_ ?_ ?_
      · rw [List.length_set]
        exact hrl
      · intro j
        rw [List.getD_eq_getElem?_getD, List.getElem?_set]
        by_cases hij : i = j
        · subst hij
          rw [if_pos rfl, if_pos (by rw [hrl]; exact hi)]
          simp
        · rw [if_neg hij, ← List.getD_eq_getElem?_getD, henc j]
          constructor
          · exact fun hj => Finset.mem_insert_of_mem hj
          · intro hj
            rcases Finset.mem_insert.mp hj with he | hj2
            · exact absurd (by exact_mod_cast he : j = i) (fun h => hij h.symm)
            · exact hj2
      · intro x hx
        rcases Finset.mem_insert.mp hx with rfl | hx2
        · rw [mem_intRange]
          exact hi
        · exact hsub hx2
      · rw [huc, Finset.card_insert_of_not_mem hiS]
      · intro p hp hpS
        rw [hdat, byteAt_writeAt]
        by_cases h1 : p < i * ChunkSize
        · rw [if_pos h1]
          apply hpt p hp
          rcases Finset.mem_insert.mp hpS with he | hx2
          · exfalso
            have he2 : p / ChunkSize = i := by exact_mod_cast he
            have h5 : p / ChunkSize < i :=
              (Nat.div_lt_iff_lt_mul (by decide : 0 < ChunkSize)).mpr h1
            omega
          · exact hx2
        · rw [if_neg h1]
          by_cases h2 : p < i * ChunkSize + (chunkSlice data i).length
          · rw [if_pos h2]
            have h6 : p - i * ChunkSize < (chunkSlice data i).length := by omega
            rw [byteAt_chunkSlice data i _ h6]
            congr 1
            omega
          · rw [if_neg h2]
            apply hpt p hp
            rcases Finset.mem_insert.mp hpS with he | hx2
            · exfalso
              have he2 : p / ChunkSize = i := by exact_mod_cast he
              have h7 : (chunkSlice data i).length = ChunkSize := by
                rcases Nat.le_total ChunkSize (data.length - i * ChunkSize) with h9 | h9
                · rw [chunkSlice_length]
                  exact Nat.min_eq_left h9
                · exfalso
                  have hle : (chunkSlice data i).length = data.length - i * ChunkSize := by
                    rw [chunkSlice_length]
                    exact Nat.min_eq_right h9
                  rw [hle] at h2
                  omega
              rw [h7] at h2
              have h10 : i + 1 ≤ p / ChunkSize := by
                rw [Nat.le_div_iff_mul_le (by decide : 0 < ChunkSize)]
                have : (i + 1) * ChunkSize = i * ChunkSize + ChunkSize := by ring
                omega
              omega
            · exact hx2
      · rw [hdat, writeAt_length]
        exact max_le hfl hslice_le
      · intro hlastS
        rw [hdat, writeAt_length]
        rcases Finset.mem_insert.mp hlastS with he | hS2
        · have hieq : (numChunks data.length - 1 : Nat) = i := by exact_mod_cast he
          have H := chunkSlice_length_at_last data hlen_pos
          have hlast_len : i * ChunkSize + (chunkSlice data i).length = data.length := by
            rw [← hieq, H.1]
            have h11 : (numChunks data.length - 1) * ChunkSize ≤ data.length - 1 := by
              rw [← hieq] at hiCS
              exact hiCS
            omega
          rw [hlast_len]
          exact max_eq_right hfl
        · rw [hlast hS2]
          exact max_eq_left hslice_le
      · intro x hx
        rcases Finset.mem_union.mp (hcov hx) with hS | hI
        · exact Finset.mem_union_left _ (Finset.mem_insert_of_mem hS)
        · rw [idxSet_cons] at hI
          rcases Finset.mem_insert.mp hI with rfl | hI2
          · refine Finset.mem_union_left _ ?_
            rw [hidx]
            exact Finset.mem_insert_self _ _
          · exact Finset.mem_union_right _ hI2


/-- **C5**: delivering the chunks produced by `StreamChunkFile` to
`AssembleChunks` in any order, with arbitrary duplicated re-deliveries,
with `totalChunks` equal to the number of produced chunks, succeeds and
writes back exactly the original file content.  The delivery stream is
any list whose elements all come from the produced chunks and which
contains every produced chunk at least once. -/
theorem assembleChunks_C5 (hashF : List Nat → String) (data : List Nat)
    (stream : List Chunk)
    (hof : ∀ c ∈ stream, c ∈ StreamChunkFile hashF data)
    (hcov : ∀ c ∈ StreamChunkFile hashF data, c ∈ stream) :
    AssembleChunks stream (StreamChunkFile hashF data).length = .ok data := by
  rw [AssembleChunks, length_StreamChunkFile]
  apply assembleAux_ok_of_covered hashF data stream ∅ [] _ 0 hof
  · exact List.length_replicate _ _
  · intro j
    constructor
    · intro hj
      exfalso
      rcases Nat.lt_or_ge j (numChunks data.length) with hlt | hge
      · rw [List.getD_eq_getElem?_getD, List.getElem?_replicate,
          if_pos hlt] at hj
        simp at hj
      · rw [List.getD_eq_getElem?_getD, List.getElem?_replicate,
          if_neg (by omega)] at hj
        simp at hj
    · intro hj
      exact absurd hj (Finset.not_mem_empty _)
  · exact Finset.empty_subset _
  · rfl
  · intro p _ hpS
    exact absurd hpS (Finset.not_mem_empty _)
  · simp
  · intro hS
    exact absurd hS (Finset.not_mem_empty _)
  · intro x hx
    rw [Finset.empty_union]
    rcases Finset.mem_image.mp hx with ⟨i, hi, rfl⟩
    have hmem : sliceChunk hashF data i ∈ StreamChunkFile hashF data := by
      rw [mem_StreamChunkFile]
      exact ⟨i, Finset.mem_range.mp hi, rfl⟩
    have hin := hcov _ hmem
    unfold idxSet
    rw [List.mem_toFinset]
    exact List.mem_map.mpr ⟨sliceChunk hashF data i, hin, rfl⟩


/-- Witness for C5: the two-byte file `[5, 6]` chunked and reassembled
(delivery in produced order, which is one admissible order). -/
theorem assembleChunks_C5_witness :
    (∀ c ∈ StreamChunkFile (fun l => toString l) [5, 6],
        c ∈ StreamChunkFile (fun l => toString l) [5, 6])
    ∧ AssembleChunks (StreamChunkFile (fun l => toString l) [5, 6])
        (StreamChunkFile (fun l => toString l) [5, 6]).length = .ok [5, 6] :=
  ⟨fun _ hc => hc,
   assembleChunks_C5 (fun l => toString l) [5, 6] _ (fun _ hc => hc) (fun _ hc => hc)⟩


/-- If some delivered chunk is out of bounds, the assembly loop fails
with `outOfBounds` at the first such chunk, whatever the state. -/
theorem assembleAux_oob (total : Nat) :
    ∀ (stream : List Chunk) (c : Chunk) (file : List Nat)
      (received : List Bool) (uc : Nat),
    stream.find? (fun c => decide (c.Index < 0 ∨ (total : Int) ≤ c.Index)) = some c →
    AssembleChunksAux total stream file received uc = .error (.outOfBounds c.Index) := by
  intro stream
  induction stream with
  | nil =>
    intro c file received uc hfind
    simp at hfind
  | cons a rest ih =>
    intro c file received uc hfind
    by_cases ha : a.Index < 0 ∨ (total : Int) ≤ a.Index
    · rw [List.find?_cons_of_pos _ (by simpa using ha)] at hfind
      have hac : a = c := by simpa using hfind
      subst hac
      simp only [AssembleChunksAux]
      rw [if_pos ha]
    · rw [List.find?_cons_of_neg _ (by simpa using ha)] at hfind
      simp only [AssembleChunksAux]
      rw [if_neg ha]
      by_cases hrec : received.getD a.Index.toNat false
      · rw [if_pos hrec]
        exact ih c _ _ _ hfind
      · rw [if_neg hrec]
        exact ih c _ _ _ hfind


/-- When no delivered chunk is out of bounds, the assembly loop succeeds
exactly when the distinct indices already marked plus those in the
stream number `totalChunks`; otherwise it fails with
`incompleteAssembly` carrying that distinct count. -/
theorem assembleAux_error_char (total : Nat) :
    ∀ (stream : List Chunk) (S : Finset Int) (file : List Nat)
      (received : List Bool) (uc : Nat),
    (∀ c ∈ stream, ¬(c.Index < 0 ∨ (total : Int) ≤ c.Index)) →
    received.length = total →
    (∀ j : Nat, received.getD j false = true ↔ (j : Int) ∈ S) →
    uc = S.card →
    (if (S ∪ idxSet stream).card = total
     then ∃ out, AssembleChunksAux total stream file received uc = .ok out
     else AssembleChunksAux total stream file received uc
        = .error (.incompleteAssembly total ((S ∪ idxSet stream).card))) := by
  intro stream
  induction stream with
  | nil =>
    intro S file received uc _ hrl henc huc
    rw [idxSet_nil, Finset.union_empty]
    by_cases hS : S.card = total
    · rw [if_pos hS]
      refine ⟨file, ?_⟩
      rw [AssembleChunksAux, if_neg (by omega)]
    · rw [if_neg hS]
      rw [AssembleChunksAux, if_pos (by omega)]
      rw [huc]
  | cons c rest ih =>
    intro S file received uc hinr hrl henc huc
    have hc := hinr c (by simp)
    have h0 : (0 : Int) ≤ c.Index := by omega
    have hlt : c.Index < (total : Int) := by omega
    have hidx : c.Index = (c.Index.toNat : Int) := (Int.toNat_of_nonneg h0).symm
    have hitotal : c.Index.toNat < total := by omega
    simp only [AssembleChunksAux]
    rw [if_neg hc]
    rw [idxSet_cons]
    by_cases hrec : received.getD c.Index.toNat false
    · rw [if_pos hrec]
      have hmemS : c.Index ∈ S := by
        rw [hidx]
        exact (henc c.Index.toNat).mp hrec
      have habsorb : S ∪ insert c.Index (idxSet rest) = S ∪ idxSet rest := by
        ext x
        simp only [Finset.mem_union, Finset.mem_insert]
        constructor
        · rintro (h | rfl | h)
          · exact Or.inl h
          · exact Or.inl hmemS
          · exact Or.inr h
        · rintro (h | h)
          · exact Or.inl h
          · exact Or.inr (Or.inr h)
      rw [habsorb]
      exact ih S file received uc (fun c' hc' => hinr c' (by simp [hc'])) hrl henc huc
    · rw [if_neg hrec]
      have hnotS : c.Index ∉ S := by
        rw [hidx]
        exact fun hm => hrec ((henc c.Index.toNat).mpr hm)
      have hassoc : S ∪ insert c.Index (idxSet rest) = insert c.Index S ∪ idxSet rest := by
        ext x
        simp only [Finset.mem_union, Finset.mem_insert]
        tauto
      rw [hassoc]
      refine ih (insert c.Index S) _ _ _ (fun c' hc' => hinr c' (by simp [hc'])) ?_ ?_ ?_
      · rw [List.length_set]
        exact hrl
      · intro j
        rw [List.getD_eq_getElem?_getD, List.getElem?_set]
        by_cases hij : c.Index.toNat = j
        · subst hij
          rw [if_pos rfl, if_pos (by rw [hrl]; exact hitotal)]
          simp [← hidx]
        · rw [if_neg hij, ← List.getD_eq_getElem?_getD, henc j]
          constructor
          · exact fun hj => Finset.mem_insert_of_mem hj
          · intro hj
            rcases Finset.mem_insert.mp hj with he | hj2
            · exfalso
              apply hij
              omega
            · exact hj2
      · rw [huc, Finset.card_insert_of_not_mem hnotS]


/-- **C6**: `AssembleChunks` fails exactly in two cases.  If some
delivered chunk's index lies outside `[0, totalChunks)`, it fails
immediately with `outOfBounds` at the first such chunk.  Otherwise it
fails if and only if the number of distinct delivered indices differs
from `totalChunks`, with `incompleteAssembly` carrying that distinct
count — a chunk whose index was already written is ignored silently and
does not increase the count.  On failure no output bytes are returned
(`Except.error` carries no buffer). -/
theorem assembleChunks_C6 (stream : List Chunk) (total : Nat) :
    (∀ c : Chunk,
        stream.find? (fun c => decide (c.Index < 0 ∨ (total : Int) ≤ c.Index)) = some c →
        AssembleChunks stream total = .error (.outOfBounds c.Index))
    ∧ (stream.find? (fun c => decide (c.Index < 0 ∨ (total : Int) ≤ c.Index)) = none →
        (if (idxSet stream).card = total
         then ∃ out, AssembleChunks stream total = .ok out
         else AssembleChunks stream total
            = .error (.incompleteAssembly total (idxSet stream).card))) := by
  constructor
  · intro c hfind
    exact assembleAux_oob total stream c _ _ _ hfind
  · intro hfind
    have hinr : ∀ c ∈ stream, ¬(c.Index < 0 ∨ (total : Int) ≤ c.Index) := by
      intro c hc
      have h := List.find?_eq_none.mp hfind c hc
      simpa using h
    have H := assembleAux_error_char total stream ∅ []
      (List.replicate total false) 0 hinr (List.length_replicate _ _) ?_ rfl
    · rwa [Finset.empty_union] at H
    · intro j
      constructor
      · intro hj
        exfalso
        rcases Nat.lt_or_ge j total with hlt | hge
        · rw [List.getD_eq_getElem?_getD, List.getElem?_replicate, if_pos hlt] at hj
          simp at hj
        · rw [List.getD_eq_getElem?_getD, List.getElem?_replicate,
            if_neg (by omega)] at hj
          simp at hj
      · intro hj
        exact absurd hj (Finset.not_mem_empty _)


/-- Witness for C6: a duplicated delivery of index 0 with
`totalChunks = 2` is incomplete with distinct count 1; a single chunk
with index 5 and `totalChunks = 2` is out of bounds. -/
theorem assembleChunks_C6_witness :
    AssembleChunks [⟨0, [7], "h", 1⟩, ⟨0, [7], "h", 1⟩] 2
        = .error (.incompleteAssembly 2 1)
    ∧ AssembleChunks [⟨5, [7], "h", 1⟩] 2 = .error (.outOfBounds 5) := by
  constructor
  · have H := (assembleChunks_C6 [⟨0, [7], "h", 1⟩, ⟨0, [7], "h", 1⟩] 2).2 (by decide)
    rw [if_neg (by decide)] at H
    have hcard : (idxSet [(⟨0, [7], "h", 1⟩ : Chunk), ⟨0, [7], "h", 1⟩]).card = 1 := by
      decide
    rwa [hcard] at H
  · exact (assembleChunks_C6 [⟨5, [7], "h", 1⟩] 2).1 ⟨5, [7], "h", 1⟩ (by decide)


theorem zipWith_xor_cancel (p s : List Nat) (h : s.length = p.length) :
    (p.zipWith (fun a b => a ^^^ b) s).zipWith (fun a b => a ^^^ b) s = p := by
  induction p generalizing s with
  | nil => simp
  | cons a p ih =>
    cases s with
    | nil => simp at h
    | cons b s =>
      simp only [List.zipWith_cons_cons, List.cons.injEq]
      refine ⟨?_, ih s (by simpa using h)⟩
      rw [Nat.xor_assoc, Nat.xor_self, Nat.xor_zero]


/-- **C7**: for every 32-byte key and every plaintext (the empty buffer
included), decrypting an encryption round-trips to exactly the original
plaintext, whatever nonce `EncryptChunk` drew. -/
theorem encryptDecrypt_C7 (ks : List Nat → List Nat → Nat → List Nat)
    (macF : List Nat → List Nat → List Nat → List Nat)
    (key nonce p : List Nat)
    (hkey : key.length = KeySize) (hnonce : nonce.length = NonceSizeX)
    (hks : ∀ k n m, (ks k n m).length = m)
    (hmac : ∀ k n c, (macF k n c).length = Overhead)
    (ct : List Nat) (henc : EncryptChunk ks macF p key nonce = .ok ct) :
    DecryptChunk ks macF ct key = .ok p := by
  rw [EncryptChunk, if_neg (by omega)] at henc
  have hct : ct = aeadSeal ks macF key nonce p := by
    exact (Except.ok.injEq _ _).mp henc.symm
  subst hct
  have hseal : aeadSeal ks macF key nonce p
      = nonce ++ (p.zipWith (fun a b => a ^^^ b) (ks key nonce p.length))
        ++ macF key nonce (p.zipWith (fun a b => a ^^^ b) (ks key nonce p.length)) := rfl
  rw [hseal]
  have hctlen : (p.zipWith (fun a b => a ^^^ b) (ks key nonce p.length)).length
      = p.length := by
    rw [List.length_zipWith, hks, Nat.min_self]
  set ctc := p.zipWith (fun a b => a ^^^ b) (ks key nonce p.length) with hctc
  have htag := hmac key nonce ctc
  set tag := macF key nonce ctc with htagdef
  rw [DecryptChunk, if_neg (by omega)]
  have hlen : (nonce ++ ctc ++ tag).length = NonceSizeX + (p.length + Overhead) := by
    simp only [List.length_append, hnonce, hctlen, htag]
    omega
  rw [if_neg (by omega)]
  have e1 : (nonce ++ ctc ++ tag).take NonceSizeX = nonce := by
    rw [List.append_assoc, ← hnonce, List.take_left]
  have e2 : (nonce ++ ctc ++ tag).drop NonceSizeX = ctc ++ tag := by
    rw [List.append_assoc, ← hnonce, List.drop_left]
  rw [e1, e2, aeadOpen]
  have hctt : (ctc ++ tag).length = p.length + Overhead := by
    simp [hctlen, htag]
  rw [if_neg (by omega)]
  have e3 : (ctc ++ tag).length - Overhead = ctc.length := by omega
  have e4 : (ctc ++ tag).take ((ctc ++ tag).length - Overhead) = ctc := by
    rw [e3, List.take_left]
  have e5 : (ctc ++ tag).drop ((ctc ++ tag).length - Overhead) = tag := by
    rw [e3, List.drop_left]
  simp only [e4, e5]
  rw [if_pos (beq_self_eq_true _)]
  congr 1
  rw [hctlen, hctc]
  exact zipWith_xor_cancel p _ (by rw [hks])


/-- Witness for C7 at a concrete key, nonce, plaintext, keystream and
MAC. -/
theorem encryptDecrypt_C7_witness :
    DecryptChunk (fun _ _ m => List.replicate m 7) (fun _ _ _ => List.replicate 16 1)
      (List.replicate 24 2 ++ [14] ++ List.replicate 16 1)
      (List.replicate 32 0) = .ok [9] :=
  encryptDecrypt_C7 (fun _ _ m => List.replicate m 7) (fun _ _ _ => List.replicate 16 1)
    (List.replicate 32 0) (List.replicate 24 2) [9] (by decide) (by decide)
    (fun _ _ m => List.length_replicate m 7)
    (fun _ _ _ => List.length_replicate 16 1)
    (List.replicate 24 2 ++ [14] ++ List.replicate 16 1) (by rfl)


/-- **C10**: for a 32-byte key the buffer returned by `EncryptChunk` is
exactly `len(plaintext) + 40` bytes long (24-byte nonce prefix plus
16-byte tag suffix), hence strictly longer than the plaintext — also
for the empty plaintext — and never shorter than `DecryptChunk`'s
24-byte minimum-length check. -/
theorem encrypt_length_C10 (ks : List Nat → List Nat → Nat → List Nat)
    (macF : List Nat → List Nat → List Nat → List Nat)
    (key nonce p : List Nat)
    (hkey : key.length = KeySize) (hnonce : nonce.length = NonceSizeX)
    (hks : ∀ k n m, (ks k n m).length = m)
    (hmac : ∀ k n c, (macF k n c).length = Overhead) :
    ∃ ct, EncryptChunk ks macF p key nonce = .ok ct
      ∧ ct.length = p.length + (NonceSizeX + Overhead)
      ∧ p.length < ct.length ∧ NonceSizeX ≤ ct.length := by
  have hn24 : NonceSizeX = 24 := rfl
  have ho16 : Overhead = 16 := rfl
  refine ⟨aeadSeal ks macF key nonce p, ?_, ?_, ?_, ?_⟩
  · rw [EncryptChunk, if_neg (by omega)]
  · unfold aeadSeal
    simp only [List.length_append, List.length_zipWith, hks, hmac, hnonce, Nat.min_self]
    omega
  · unfold aeadSeal
    simp only [List.length_append, List.length_zipWith, hks, hmac, hnonce, Nat.min_self]
    omega
  · unfold aeadSeal
    simp only [List.length_append, List.length_zipWith, hks, hmac, hnonce, Nat.min_self]
    omega


/-- Witness for C10 at a concrete key, nonce and plaintext. -/
theorem encrypt_length_C10_witness :
    ∃ ct, EncryptChunk (fun _ _ m => List.replicate m 7) (fun _ _ _ => List.replicate 16 1)
        [9] (List.replicate 32 0) (List.replicate 24 2) = .ok ct
      ∧ ct.length = 1 + (NonceSizeX + Overhead)
      ∧ 1 < ct.length ∧ NonceSizeX ≤ ct.length :=
  encrypt_length_C10 (fun _ _ m => List.replicate m 7) (fun _ _ _ => List.replicate 16 1)
    (List.replicate 32 0) (List.replicate 24 2) [9] (by decide) (by decide)
    (fun _ _ m => List.length_replicate m 7)
    (fun _ _ _ => List.length_replicate 16 1)


theorem unmarshal_marshal_chunkMeta (c : ChunkMeta) :
    unmarshalChunkMeta (marshalChunkMeta c) = .ok c := rfl


theorem mapM_unmarshal_marshal (cs : List ChunkMeta) :
    (cs.map marshalChunkMeta).mapM unmarshalChunkMeta = .ok cs := by
  induction cs with
  | nil => rfl
  | cons c cs ih =>
    rw [List.map_cons, List.mapM_cons, unmarshal_marshal_chunkMeta, ih]
    rfl


/-- **C8**: for every manifest built by `New`, `Load (Save m)` succeeds
and returns a manifest whose every field equals the corresponding field
of `m` (full record equality). -/
theorem manifest_roundtrip_C8 (hexEncode : List Nat → String)
    (fileName : String) (fileSize : Int) (originalHash : String)
    (chunks : List ChunkMeta) (encKey : List Nat) (publisher : String)
    (randomHex : String) (now : Int) :
    Load (Save (New hexEncode fileName fileSize originalHash chunks encKey
        publisher randomHex now))
      = .ok (New hexEncode fileName fileSize originalHash chunks encKey
        publisher randomHex now) := by
  have key : Load (Save (New hexEncode fileName fileSize originalHash chunks encKey
      publisher randomHex now))
      = ((chunks.map marshalChunkMeta).mapM unmarshalChunkMeta) >>= (fun ch =>
          .ok ⟨"1.0", "0x" ++ randomHex, fileName, fileSize, originalHash,
               1024 * 1024, (chunks.length : Int), ch, hexEncode encKey, now,
               publisher⟩) := rfl
  rw [key, mapM_unmarshal_marshal]
  rfl


theorem firstOccurAux_fuel (l : List Int) (fuel : Nat) (hle : l.length ≤ fuel) :
    firstOccurAux fuel l = firstOccur l := by
  unfold firstOccur
  cases l with
  | nil => cases fuel <;> rfl
  | cons x xs =>
    cases fuel with
    | zero => simp at hle
    | succ fuel =>
      simp only [List.length_cons, firstOccurAux]
      congr 1
      rw [firstOccurAux_fuel (xs.filter (fun y => y != x)) fuel
          (le_trans (List.length_filter_le _ _)
            (by simpa using Nat.le_of_succ_le_succ hle)),
        firstOccurAux_fuel (xs.filter (fun y => y != x)) xs.length
          (List.length_filter_le _ _)]
termination_by l.length
decreasing_by
  all_goals
    simp only [*, List.length_cons]
    exact Nat.lt_succ_of_le (List.length_filter_le _ _)


theorem firstOccur_cons (x : Int) (xs : List Int) :
    firstOccur (x :: xs) = x :: firstOccur (xs.filter (fun y => y != x)) := by
  rw [firstOccur, List.length_cons, firstOccurAux,
    firstOccurAux_fuel _ _ (List.length_filter_le _ _)]


theorem mem_firstOccur (l : List Int) (y : Int) (h : y ∈ firstOccur l) : y ∈ l := by
  cases l with
  | nil => simp [firstOccur, firstOccurAux] at h
  | cons x xs =>
    rw [firstOccur_cons] at h
    rcases List.mem_cons.mp h with rfl | h2
    · exact List.mem_cons_self _ _
    · have h3 := mem_firstOccur (xs.filter (fun y => y != x)) y h2
      exact List.mem_cons_of_mem _ (List.mem_of_mem_filter h3)
termination_by l.length
decreasing_by
  simp only [*, List.length_cons]
  exact Nat.lt_succ_of_le (List.length_filter_le _ _)


theorem firstOccur_nodup (l : List Int) : (firstOccur l).Nodup := by
  cases l with
  | nil => simp [firstOccur, firstOccurAux]
  | cons x xs =>
    rw [firstOccur_cons]
    refine List.nodup_cons.mpr ⟨?_, ?_⟩
    · intro hx
      have h1 := mem_firstOccur _ _ hx
      have h2 := List.of_mem_filter h1
      simp at h2
    · exact firstOccur_nodup (xs.filter (fun y => y != x))
termination_by l.length
decreasing_by
  simp only [*, List.length_cons]
  exact Nat.lt_succ_of_le (List.length_filter_le _ _)


theorem contains_append_singleton (seen : List Int) (x y : Int) :
    (seen ++ [x]).contains y = (seen.contains y || y == x) := by
  induction seen with
  | nil => simp [Bool.beq_eq_decide_eq]
  | cons a l ih => simp [List.contains_cons, ih, Bool.or_assoc, Bool.beq_eq_decide_eq]


theorem filterMap_cons_toList {α β : Type} (f : α → Option β) (x : α) (l : List α) :
    List.filterMap f (x :: l) = (f x).toList ++ List.filterMap f l := by
  cases hfx : f x with
  | none => simp [List.filterMap_cons, hfx]
  | some b => simp [List.filterMap_cons, hfx]


/-- The generalized meaning of the seen-map fold in
`GetFarmersForChunk`: from any intermediate state it appends, in
first-appearance order, the farmers of the not-yet-seen indices. -/
theorem farmersFold_eq (farmers : List FarmerInfo) :
    ∀ (shards : List ShardMeta) (seen : List Int) (out : List FarmerInfo),
    (shards.foldl (fun (acc : List Int × List FarmerInfo) s =>
        if !(acc.1.contains s.FarmerIndex) then
          (acc.1 ++ [s.FarmerIndex], acc.2 ++ (GetFarmerForShard farmers s).toList)
        else acc) (seen, out)).2
      = out ++ (firstOccur ((shards.map (fun s => s.FarmerIndex)).filter
            (fun y => !(seen.contains y)))).filterMap
          (fun i => if 0 ≤ i then farmers[i.toNat]? else none) := by
  intro shards
  induction shards with
  | nil =>
    intro seen out
    simp [firstOccur, firstOccurAux]
  | cons s rest ih =>
    intro seen out
    rw [List.foldl_cons]
    by_cases hseen : seen.contains s.FarmerIndex
    · rw [if_neg (by simpa using hseen)]
      rw [ih seen out, List.map_cons, List.filter_cons]
      rw [if_neg (by simp; simpa using hseen)]
    · rw [if_pos (by simpa using hseen)]
      rw [ih (seen ++ [s.FarmerIndex]) (out ++ (GetFarmerForShard farmers s).toList),
        List.map_cons, List.filter_cons,
        if_pos (by simp; simpa using hseen), firstOccur_cons, filterMap_cons_toList]
      have hfilters :
          (rest.map (fun s => s.FarmerIndex)).filter
            (fun y => !((seen ++ [s.FarmerIndex]).contains y))
          = ((rest.map (fun s => s.FarmerIndex)).filter
            (fun y => !(seen.contains y))).filter (fun y => y != s.FarmerIndex) := by
        rw [List.filter_filter]
        apply List.filter_congr
        intro y _
        rw [contains_append_singleton]
        cases hy : y == s.FarmerIndex <;> cases hz : seen.contains y <;>
          simp [bne, hy, hz]
      rw [hfilters]
      have hlook : (if 0 ≤ s.FarmerIndex then farmers[s.FarmerIndex.toNat]? else none)
          = GetFarmerForShard farmers s := by
        unfold GetFarmerForShard
        by_cases h1 : 0 ≤ s.FarmerIndex
        · by_cases h2 : s.FarmerIndex < (farmers.length : Int)
          · rw [if_pos h1, if_pos ⟨h1, h2⟩]
          · rw [if_pos h1, if_neg (fun hc => h2 hc.2),
              List.getElem?_eq_none (by omega)]
        · rw [if_neg h1, if_neg (fun hc => h1 hc.1)]
      rw [hlook, List.append_assoc]


/-- **C9**: `GetFarmersForChunk` returns, for the shards of the given
chunk, the farmer of each distinct farmer index exactly once, in order
of first appearance — even when several shards of the chunk map to the
same farmer index: it equals the first-occurrence de-duplication of the
chunk's farmer-index sequence looked up in the farmer directory, that
index sequence has no duplicates, and (the farmer directory having no
duplicate entries) no farmer appears twice in the result. -/
theorem farmersForChunk_C9 (shards : List ShardMeta) (farmers : List FarmerInfo)
    (chunkIndex : Int) :
    GetFarmersForChunk shards farmers chunkIndex
      = (firstOccur ((shards.filter (fun s => s.ChunkIndex == chunkIndex)).map
          (fun s => s.FarmerIndex))).filterMap
          (fun i => if 0 ≤ i then farmers[i.toNat]? else none)
    ∧ (firstOccur ((shards.filter (fun s => s.ChunkIndex == chunkIndex)).map
          (fun s => s.FarmerIndex))).Nodup
    ∧ (farmers.Nodup → (GetFarmersForChunk shards farmers chunkIndex).Nodup) := by
  have heq : GetFarmersForChunk shards farmers chunkIndex
      = (firstOccur ((shards.filter (fun s => s.ChunkIndex == chunkIndex)).map
          (fun s => s.FarmerIndex))).filterMap
          (fun i => if 0 ≤ i then farmers[i.toNat]? else none) := by
    unfold GetFarmersForChunk GetShardsForChunk
    rw [farmersFold_eq farmers
      (shards.filter (fun s => s.ChunkIndex == chunkIndex)) [] []]
    rw [List.nil_append]
    congr 2
    apply List.filter_eq_self.mpr
    intro y _
    rfl
  refine ⟨heq, firstOccur_nodup _, ?_⟩
  intro hfarm
  rw [heq]
  apply List.Nodup.filterMap ?_ (firstOccur_nodup _)
  intro i j f hfi hfj
  simp only [Option.mem_def] at hfi hfj
  by_cases hi : 0 ≤ i
  · by_cases hj : 0 ≤ j
    · rw [if_pos hi] at hfi
      rw [if_pos hj] at hfj
      have hlen : i.toNat < farmers.length := by
        by_contra hx
        rw [List.getElem?_eq_none (by omega)] at hfi
        simp at hfi
      have := List.getElem?_inj hlen hfarm (hfi.trans hfj.symm)
      omega
    · rw [if_neg hj] at hfj
      simp at hfj
  · rw [if_neg hi] at hfi
    simp at hfi


/-- Witness for C9 at the deduplication scenario of
`TestGetFarmersForChunk_Deduplication`: four shards of chunk 0 on
farmer indices 0, 0, 1, 0 over a two-farmer directory. -/
theorem farmersForChunk_C9_witness :
    ([⟨0, "0xF0", "https://f0.io", "us"⟩, ⟨1, "0xF1", "https://f1.io", "eu"⟩] :
        List FarmerInfo).Nodup
    ∧ (GetFarmersForChunk
        [⟨0, 0, "s0", 256, 0⟩, ⟨0, 1, "s1", 256, 0⟩, ⟨0, 2, "s2", 256, 1⟩,
         ⟨0, 3, "s3", 256, 0⟩]
        [⟨0, "0xF0", "https://f0.io", "us"⟩, ⟨1, "0xF1", "https://f1.io", "eu"⟩]
        0).Nodup :=
  ⟨by decide,
   (farmersForChunk_C9
      [⟨0, 0, "s0", 256, 0⟩, ⟨0, 1, "s1", 256, 0⟩, ⟨0, 2, "s2", 256, 1⟩,
       ⟨0, 3, "s3", 256, 0⟩]
      [⟨0, "0xF0", "https://f0.io", "us"⟩, ⟨1, "0xF1", "https://f1.io", "eu"⟩]
      0).2.2 (by decide)⟩


theorem xor_div_two (b c : Nat) : (b ^^^ c) / 2 = b / 2 ^^^ c / 2 := by
  apply Nat.eq_of_testBit_eq
  intro i
  rw [Nat.testBit_div_two, Nat.testBit_xor, Nat.testBit_xor,
    Nat.testBit_div_two, Nat.testBit_div_two]


theorem xor_cross (x y a : Nat) : (x ^^^ a) ^^^ (y ^^^ a) = x ^^^ y := by
  rw [Nat.xor_comm y a, ← Nat.xor_assoc, Nat.xor_assoc x a a, Nat.xor_self,
    Nat.xor_zero]


/-- The peasant-multiplication loop is additive in the multiplier and
in the accumulator: the heart of GF(2^8) linearity over GF(2). -/
theorem gmulAux_xor : ∀ (k a b c x y : Nat),
    gmulAux k a (b ^^^ c) (x ^^^ y) = gmulAux k a b x ^^^ gmulAux k a c y := by
  intro k
  induction k with
  | zero => intro a b c x y; rfl
  | succ k ih =>
    intro a b c x y
    simp only [gmulAux]
    rw [xor_div_two]
    have hbc : (b ^^^ c) % 2 = (b % 2 + c % 2) % 2 := by
      rw [Nat.xor_mod_two_eq, Nat.add_mod]
    have hb := Nat.mod_two_eq_zero_or_one b
    have hc := Nat.mod_two_eq_zero_or_one c
    rcases hb with hb | hb <;> rcases hc with hc | hc <;>
      rw [hb, hc] at hbc <;> simp only [hb, hc, hbc] <;> norm_num
    · exact ih _ _ _ _ _
    · rw [Nat.xor_assoc x y a]
      exact ih _ _ _ _ _
    · have hcomm : x ^^^ y ^^^ a = (x ^^^ a) ^^^ y := by
        rw [Nat.xor_assoc, Nat.xor_comm y a, ← Nat.xor_assoc]
      rw [hcomm]
      exact ih _ _ _ _ _
    · rw [← xor_cross x y a]
      exact ih _ _ _ _ _


/-- GF(2^8) multiplication distributes over field addition (xor). -/
theorem gmul_xor (a b c : Nat) : gmul a (b ^^^ c) = gmul a b ^^^ gmul a c := by
  have h := gmulAux_xor 8 a b c 0 0
  simpa [gmul] using h


theorem gmulAux_zero : ∀ (k a acc : Nat), gmulAux k a 0 acc = acc := by
  intro k
  induction k with
  | zero => intro a acc; rfl
  | succ k ih => intro a acc; simp only [gmulAux]; norm_num; exact ih _ _


/-- Multiplication by zero. -/
theorem gmul_zero (a : Nat) : gmul a 0 = 0 := gmulAux_zero 8 _ 0


/-- The Vandermonde matrix, evaluated. -/
theorem vand_eq :
    vand = [[1, 0, 0, 0], [1, 1, 1, 1], [1, 2, 4, 8],
            [1, 3, 5, 15], [1, 4, 16, 64], [1, 5, 17, 85]] := by
  decide


/-- The inverse of the Vandermonde top square, evaluated. -/
theorem vtopInv_eq :
    matInv [[1, 0, 0, 0], [1, 1, 1, 1], [1, 2, 4, 8], [1, 3, 5, 15]]
      = [[1, 0, 0, 0], [123, 1, 142, 244],
         [0, 122, 244, 142], [122, 122, 122, 122]] := by
  decide


theorem encMatrix_eq : encMatrix = encLit := by
  unfold encMatrix
  rw [vand_eq,
    show ([[1, 0, 0, 0], [1, 1, 1, 1], [1, 2, 4, 8],
           [1, 3, 5, 15], [1, 4, 16, 64], [1, 5, 17, 85]].take 4 : List (List Nat))
      = [[1, 0, 0, 0], [1, 1, 1, 1], [1, 2, 4, 8], [1, 3, 5, 15]] from rfl,
    vtopInv_eq]
  decide


theorem parityRow_eq (r : Nat) : parityRow r = parityRowL r := by
  unfold parityRow parityRowL
  rw [encMatrix_eq]
  by_cases h0 : r = 0
  · subst h0
    rw [if_pos rfl]
    decide
  · rw [if_neg h0]
    by_cases h1 : r = 1
    · subst h1
      rw [if_pos rfl]
      decide
    · rw [if_neg h1]


theorem fullCol_eq (x : List Nat) : fullCol x = fullColL x := by
  unfold fullCol fullColL
  rw [parityRow_eq, parityRow_eq]


theorem reconFullColD_eq (dm : List (List Nat)) (pres : List Bool) (y : List Nat) :
    reconFullColD dm pres y = reconFullColDL dm pres y := by
  simp only [reconFullColD, reconFullColDL, parityRow_eq]


/-- `decodeMat`, re-expressed over the evaluated encoding matrix, the
row projection collapsed to a row fetch, so a per-pattern instance
evaluates cheaply. -/
theorem decodeMat_eq_lit (pres : List Bool) :
    decodeMat pres
      = matInv ((((List.range 6).filter (fun i => pres.getD i false)).take 4).map
          (fun i => encLit.getD i [])) := by
  unfold decodeMat subMat
  rw [encMatrix_eq]
  congr 1
  apply List.map_congr_left
  intro i hi
  have hi6 : i < 6 := by
    have h := List.mem_of_mem_take hi
    rw [List.mem_filter, List.mem_range] at h
    exact h.1
  interval_cases i <;> decide


/-- `matInv` with the determinant-inverse scalar evaluated up front (the
adjugate entries all share it). -/
theorem matInv_eq_adjScaled (M : List (List Nat)) (d : Nat)
    (hd : ginv (gdet4 M) = d) : matInv M = adjScaled d M := by
  unfold matInv
  rw [hd]


/-- The table indeed holds the encoded single-bit columns. -/
theorem basisCol_eq : ∀ c < 4, ∀ k < 8,
    fullColL (single c (2 ^ k)) = basisCol c k := by
  decide


/-- The per-pattern basis obligation, reduced to the tabulated columns
so each instance evaluates without re-encoding the basis vectors. -/
theorem basis_via_table (dm : List (List Nat)) (pres : List Bool)
    (h1 : ∀ c < 4, ∀ k < 8, reconFullColDL dm pres (basisCol c k) = basisCol c k) :
    ∀ c < 4, ∀ k < 8,
      reconFullColDL dm pres (fullColL (single c (2 ^ k)))
        = fullColL (single c (2 ^ k)) := by
  intro c hc k hk
  rw [basisCol_eq c hc k hk]
  exact h1 c hc k hk


theorem xor_swap (a b c d : Nat) : (a ^^^ b) ^^^ (c ^^^ d) = (a ^^^ c) ^^^ (b ^^^ d) := by
  rw [Nat.xor_assoc, Nat.xor_assoc, ← Nat.xor_assoc b c d, Nat.xor_comm b c,
    Nat.xor_assoc c b d]


theorem dot_vxor (r : List Nat) : ∀ (x y : List Nat), x.length = y.length →
    dot r (vxor x y) = dot r x ^^^ dot r y := by
  induction r with
  | nil => intro x y _; simp [dot]
  | cons a rs ih =>
    intro x y hxy
    cases x with
    | nil =>
      cases y with
      | nil => simp [dot, vxor]
      | cons _ _ => simp at hxy
    | cons x0 xs =>
      cases y with
      | nil => simp at hxy
      | cons y0 ys =>
        show dot (a :: rs) ((x0 ^^^ y0) :: vxor xs ys) = _
        show gmul a (x0 ^^^ y0) ^^^ dot rs (vxor xs ys) = _
        rw [gmul_xor, ih xs ys (by simpa using hxy)]
        exact xor_swap _ _ _ _


theorem vxor_length (x y : List Nat) (h : x.length = y.length) :
    (vxor x y).length = x.length := by
  simp [vxor, h]


theorem vxor_getD (y z : List Nat) (h : y.length = z.length) (i : Nat) :
    (vxor y z).getD i 0 = y.getD i 0 ^^^ z.getD i 0 := by
  induction y generalizing z i with
  | nil =>
    cases z with
    | nil => simp [vxor]
    | cons _ _ => simp at h
  | cons y0 ys ih =>
    cases z with
    | nil => simp at h
    | cons z0 zs =>
      cases i with
      | zero => simp [vxor]
      | succ i =>
        show (vxor ys zs).getD i 0 = _
        rw [ih zs (by simpa using h) i]
        rfl


theorem single_length (c v : Nat) : (single c v).length = 4 := by
  simp [single]


theorem single_zero (c : Nat) : single c 0 = [0, 0, 0, 0] := by
  simp [single]


theorem single_xor (c p q : Nat) :
    single c (p ^^^ q) = vxor (single c p) (single c q) := by
  simp only [single, vxor, List.zipWith_map, List.zipWith_same]
  apply List.map_congr_left
  intro i _
  by_cases h : i = c
  · simp [h]
  · simp [h]


/-- Any GF(2)-additive function agreeing with another on the 32
single-bit basis vectors and on zero agrees on every byte vector. -/
theorem additive_basis_lift (g h : List Nat → List Nat)
    (hg : ∀ u v, u.length = 4 → v.length = 4 → g (vxor u v) = vxor (g u) (g v))
    (hh : ∀ u v, u.length = 4 → v.length = 4 → h (vxor u v) = vxor (h u) (h v))
    (hbasis : ∀ c < 4, ∀ k < 8, g (single c (2 ^ k)) = h (single c (2 ^ k)))
    (hzero : g [0, 0, 0, 0] = h [0, 0, 0, 0]) :
    ∀ x, x.length = 4 → (∀ b ∈ x, b < 256) → g x = h x := by
  have hdisj : ∀ (k a b : Nat), b < 2 ^ k → (2 ^ k * a) ^^^ b = 2 ^ k * a + b := by
    intro k a b hb
    rw [Nat.mul_add_lt_is_or hb]
    apply Nat.eq_of_testBit_eq
    intro j
    rw [Nat.testBit_xor, Nat.testBit_or]
    rcases Nat.lt_or_ge j k with hj | hj
    · rw [Nat.testBit_mul_pow_two]
      simp [Nat.not_le.mpr hj]
    · have hbj : b.testBit j = false :=
        Nat.testBit_lt_two_pow (lt_of_lt_of_le hb (Nat.pow_le_pow_right (by omega) hj))
      simp [hbj]
  have hsingle : ∀ c, c < 4 → ∀ k, k ≤ 8 → ∀ v, v < 2 ^ k →
      g (single c v) = h (single c v) := by
    intro c hc k
    induction k with
    | zero =>
      intro _ v hv
      have hv0 : v = 0 := by omega
      rw [hv0, single_zero]
      exact hzero
    | succ k ih =>
      intro hk v hv
      have hdm := Nat.div_add_mod v (2 ^ k)
      have hmlt : v % 2 ^ k < 2 ^ k := Nat.mod_lt v (Nat.two_pow_pos k)
      have hqlt : v / 2 ^ k < 2 := by
        rw [Nat.div_lt_iff_lt_mul (Nat.two_pow_pos k)]
        have hpow : 2 ^ (k + 1) = 2 * 2 ^ k := by rw [Nat.pow_succ]; ring
        omega
      rcases Nat.lt_or_ge v (2 ^ k) with hvlt | hvge
      · exact ih (by omega) v hvlt
      · have hq1 : v / 2 ^ k = 1 := by
          have h1 : 1 ≤ v / 2 ^ k := by
            rw [Nat.le_div_iff_mul_le (Nat.two_pow_pos k)]
            omega
          omega
        have hsplit : v = 2 ^ k ^^^ (v % 2 ^ k) := by
          have := hdisj k 1 (v % 2 ^ k) hmlt
          rw [Nat.mul_one] at this
          rw [this]
          rw [hq1, Nat.mul_one] at hdm
          omega
        rw [hsplit, single_xor,
          hg _ _ (single_length _ _) (single_length _ _),
          hh _ _ (single_length _ _) (single_length _ _),
          hbasis c hc k (by omega), ih (by omega) (v % 2 ^ k) hmlt]
  intro x hx hb
  match x, hx with
  | [a, b, c, d], _ =>
    have hdecomp : ([a, b, c, d] : List Nat)
        = vxor (single 0 a) (vxor (single 1 b) (vxor (single 2 c) (single 3 d))) := by
      show ([a, b, c, d] : List Nat)
        = vxor [a, 0, 0, 0] (vxor [0, b, 0, 0] (vxor [0, 0, c, 0] [0, 0, 0, d]))
      simp [vxor]
    have l1 : (vxor (single 2 c) (single 3 d)).length = 4 := by
      rw [vxor_length _ _ (by rw [single_length, single_length]), single_length]
    have l2 : (vxor (single 1 b) (vxor (single 2 c) (single 3 d))).length = 4 := by
      rw [vxor_length _ _ (by rw [single_length]; omega), single_length]
    have ha : a < 256 := hb a (by simp)
    have hbb : b < 256 := hb b (by simp)
    have hcc : c < 256 := hb c (by simp)
    have hdd : d < 256 := hb d (by simp)
    rw [hdecomp,
      hg _ _ (single_length _ _) l2, hh _ _ (single_length _ _) l2,
      hg _ _ (single_length _ _) l1, hh _ _ (single_length _ _) l1,
      hg _ _ (single_length _ _) (single_length _ _),
      hh _ _ (single_length _ _) (single_length _ _),
      hsingle 0 (by omega) 8 le_rfl a ha,
      hsingle 1 (by omega) 8 le_rfl b hbb,
      hsingle 2 (by omega) 8 le_rfl c hcc,
      hsingle 3 (by omega) 8 le_rfl d hdd]


theorem map_xor_eq_vxor (f g : Nat → Nat) (l : List Nat) :
    l.map (fun i => f i ^^^ g i) = vxor (l.map f) (l.map g) := by
  simp [vxor, List.zipWith_map, List.zipWith_same]


theorem fullCol_vxor (u v : List Nat) (hu : u.length = 4) (hv : v.length = 4) :
    fullCol (vxor u v) = vxor (fullCol u) (fullCol v) := by
  unfold fullCol
  rw [dot_vxor _ u v (by omega), dot_vxor _ u v (by omega)]
  show _ = List.zipWith _ _ _
  rw [List.zipWith_append _ u _ v _ (by omega)]
  rfl


theorem reconFullColD_vxor (dm : List (List Nat)) (pres : List Bool) (y z : List Nat)
    (hlen : y.length = z.length) :
    reconFullColD dm pres (vxor y z)
      = vxor (reconFullColD dm pres y) (reconFullColD dm pres z) := by
  have hgetD : ∀ i, (vxor y z).getD i 0 = y.getD i 0 ^^^ z.getD i 0 :=
    fun i => vxor_getD y z hlen i
  unfold reconFullColD
  dsimp only
  set idxs := ((List.range 6).filter (fun i => pres.getD i false)).take 4 with hidxs
  have hysub : idxs.map (fun i => (vxor y z).getD i 0)
      = vxor (idxs.map (fun i => y.getD i 0)) (idxs.map (fun i => z.getD i 0)) := by
    rw [← map_xor_eq_vxor]
    exact List.map_congr_left (fun i _ => hgetD i)
  have hysub_len : (idxs.map (fun i => y.getD i 0)).length
      = (idxs.map (fun i => z.getD i 0)).length := by
    simp
  have hxfill : (List.range 4).map (fun r =>
        if pres.getD r false then (vxor y z).getD r 0
        else dot (dm.getD r []) (idxs.map (fun i => (vxor y z).getD i 0)))
      = vxor
        ((List.range 4).map (fun r =>
          if pres.getD r false then y.getD r 0
          else dot (dm.getD r []) (idxs.map (fun i => y.getD i 0))))
        ((List.range 4).map (fun r =>
          if pres.getD r false then z.getD r 0
          else dot (dm.getD r []) (idxs.map (fun i => z.getD i 0)))) := by
    rw [← map_xor_eq_vxor]
    apply List.map_congr_left
    intro r _
    by_cases hp : pres.getD r false
    · simp only [hp, if_true]
      exact hgetD r
    · simp only [hp, if_false]
      rw [hysub, dot_vxor _ _ _ hysub_len]
      simp
  have hxfill_len : ((List.range 4).map (fun r =>
        if pres.getD r false then y.getD r 0
        else dot (dm.getD r []) (idxs.map (fun i => y.getD i 0)))).length
      = ((List.range 4).map (fun r =>
        if pres.getD r false then z.getD r 0
        else dot (dm.getD r []) (idxs.map (fun i => z.getD i 0)))).length := by
    simp
  rw [show (vxor
      ((List.range 6).map (fun i =>
        if pres.getD i false then y.getD i 0
        else if i < 4 then
          ((List.range 4).map (fun r =>
            if pres.getD r false then y.getD r 0
            else dot (dm.getD r []) (idxs.map (fun j => y.getD j 0)))).getD i 0
        else dot (parityRow (i - 4))
          ((List.range 4).map (fun r =>
            if pres.getD r false then y.getD r 0
            else dot (dm.getD r []) (idxs.map (fun j => y.getD j 0))))))
      ((List.range 6).map (fun i =>
        if pres.getD i false then z.getD i 0
        else if i < 4 then
          ((List.range 4).map (fun r =>
            if pres.getD r false then z.getD r 0
            else dot (dm.getD r []) (idxs.map (fun j => z.getD j 0)))).getD i 0
        else dot (parityRow (i - 4))
          ((List.range 4).map (fun r =>
            if pres.getD r false then z.getD r 0
            else dot (dm.getD r []) (idxs.map (fun j => z.getD j 0)))))))
      = (List.range 6).map (fun i =>
        (if pres.getD i false then y.getD i 0
         else if i < 4 then
          ((List.range 4).map (fun r =>
            if pres.getD r false then y.getD r 0
            else dot (dm.getD r []) (idxs.map (fun j => y.getD j 0)))).getD i 0
         else dot (parityRow (i - 4))
          ((List.range 4).map (fun r =>
            if pres.getD r false then y.getD r 0
            else dot (dm.getD r []) (idxs.map (fun j => y.getD j 0)))))
        ^^^
        (if pres.getD i false then z.getD i 0
         else if i < 4 then
          ((List.range 4).map (fun r =>
            if pres.getD r false then z.getD r 0
            else dot (dm.getD r []) (idxs.map (fun j => z.getD j 0)))).getD i 0
         else dot (parityRow (i - 4))
          ((List.range 4).map (fun r =>
            if pres.getD r false then z.getD r 0
            else dot (dm.getD r []) (idxs.map (fun j => z.getD j 0))))))
    from (map_xor_eq_vxor _ _ _).symm]
  apply List.map_congr_left
  intro i _
  by_cases hp : pres.getD i false
  · simp only [hp, if_true]
    exact hgetD i
  · simp only [hp, if_false]
    by_cases hi4 : i < 4
    · simp only [hi4, if_true]
      rw [hxfill]
      exact vxor_getD _ _ hxfill_len i
    · simp only [hi4, if_false]
      rw [hxfill, dot_vxor _ _ _ hxfill_len]
      simp


/-- If the decoder's column map with a given decode matrix fixes the 32
single-bit encoded columns and the zero column, it fixes every encoded
byte column: both sides are GF(2)-additive in the data bytes. -/
theorem reconFullCol_id_of_dm (pres : List Bool) (dm : List (List Nat))
    (hdm : decodeMat pres = dm)
    (hbasisL : ∀ c < 4, ∀ k < 8,
      reconFullColDL dm pres (fullColL (single c (2 ^ k))) = fullColL (single c (2 ^ k)))
    (hzeroL : reconFullColDL dm pres (fullColL [0, 0, 0, 0]) = fullColL [0, 0, 0, 0]) :
    ∀ x, x.length = 4 → (∀ b ∈ x, b < 256) →
      reconFullCol pres (fullCol x) = fullCol x := by
  intro x hx hb
  have hbasis : ∀ c < 4, ∀ k < 8,
      reconFullColD dm pres (fullCol (single c (2 ^ k))) = fullCol (single c (2 ^ k)) := by
    intro c hc k hk
    rw [fullCol_eq, reconFullColD_eq]
    exact hbasisL c hc k hk
  have hzero : reconFullColD dm pres (fullCol [0, 0, 0, 0]) = fullCol [0, 0, 0, 0] := by
    rw [fullCol_eq, reconFullColD_eq]
    exact hzeroL
  have hfc_len : ∀ u : List Nat, u.length = 4 → (fullCol u).length = 6 := by
    intro u hu
    simp [fullCol, hu]
  have hmain := additive_basis_lift
    (fun v => reconFullColD dm pres (fullCol v)) fullCol
    (by
      intro u v hu hv
      show reconFullColD dm pres (fullCol (vxor u v)) = _
      rw [fullCol_vxor u v hu hv,
        reconFullColD_vxor dm pres _ _ (by rw [hfc_len u hu, hfc_len v hv])])
    (fun u v hu hv => fullCol_vxor u v hu hv)
    hbasis hzero x hx hb
  show reconFullColD (decodeMat pres) pres (fullCol x) = fullCol x
  rw [hdm]
  exact hmain


/-- The full 4-of-6 column reconstruction identity: for every presence
pattern with at least four shards available, the decoder's column map
restores every encoded byte column exactly. Settled pattern by pattern
(22 valid patterns), each by the evaluated decode matrix plus the 32
single-bit basis checks, lifted by GF(2)-additivity. -/
theorem reconFullCol_id (pres : List Bool) (hlen : pres.length = 6)
    (hcnt : 4 ≤ (pres.filter (fun b => b)).length) :
    ∀ x, x.length = 4 → (∀ b ∈ x, b < 256) →
      reconFullCol pres (fullCol x) = fullCol x := by
  match pres, hlen, hcnt with
  | [false, false, false, false, false, false], _, hc => exact absurd hc (by decide)
  | [false, false, false, false, false, true], _, hc => exact absurd hc (by decide)
  | [false, false, false, false, true, false], _, hc => exact absurd hc (by decide)
  | [false, false, false, false, true, true], _, hc => exact absurd hc (by decide)
  | [false, false, false, true, false, false], _, hc => exact absurd hc (by decide)
  | [false, false, false, true, false, true], _, hc => exact absurd hc (by decide)
  | [false, false, false, true, true, false], _, hc => exact absurd hc (by decide)
  | [false, false, false, true, true, true], _, hc => exact absurd hc (by decide)
  | [false, false, true, false, false, false], _, hc => exact absurd hc (by decide)
  | [false, false, true, false, false, true], _, hc => exact absurd hc (by decide)
  | [false, false, true, false, true, false], _, hc => exact absurd hc (by decide)
  | [false, false, true, false, true, true], _, hc => exact absurd hc (by decide)
  | [false, false, true, true, false, false], _, hc => exact absurd hc (by decide)
  | [false, false, true, true, false, true], _, hc => exact absurd hc (by decide)
  | [false, false, true, true, true, false], _, hc => exact absurd hc (by decide)
  | [false, false, true, true, true, true], _, _ =>
    exact reconFullCol_id_of_dm _ [[208, 107, 104, 210], [107, 208, 210, 104], [1, 0, 0, 0], [0, 1, 0, 0]]
      (by
        rw [decodeMat_eq_lit,
          show ((((List.range 6).filter (fun i => ([false, false, true, true, true, true] : List Bool).getD i false)).take 4).map (fun i => encLit.getD i [])) = [[0, 0, 1, 0], [0, 0, 0, 1], [27, 28, 18, 20], [28, 27, 20, 18]] by decide,
          matInv_eq_adjScaled [[0, 0, 1, 0], [0, 0, 0, 1], [27, 28, 18, 20], [28, 27, 20, 18]] 62 (by decide)]
        decide)
      (basis_via_table _ _ (by decide))
      (by decide)
  | [false, true, false, false, false, false], _, hc => exact absurd hc (by decide)
  | [false, true, false, false, false, true], _, hc => exact absurd hc (by decide)
  | [false, true, false, false, true, false], _, hc => exact absurd hc (by decide)
  | [false, true, false, false, true, true], _, hc => exact absurd hc (by decide)
  | [false, true, false, true, false, false], _, hc => exact absurd hc (by decide)
  | [false, true, false, true, false, true], _, hc => exact absurd hc (by decide)
  | [false, true, false, true, true, false], _, hc => exact absurd hc (by decide)
  | [false, true, false, true, true, true], _, _ =>
    exact reconFullCol_id_of_dm _ [[143, 211, 211, 142], [1, 0, 0, 0], [179, 143, 244, 201], [0, 1, 0, 0]]
      (by
        rw [decodeMat_eq_lit,
          show ((((List.range 6).filter (fun i => ([false, true, false, true, true, true] : List Bool).getD i false)).take 4).map (fun i => encLit.getD i [])) = [[0, 1, 0, 0], [0, 0, 0, 1], [27, 28, 18, 20], [28, 27, 20, 18]] by decide,
          matInv_eq_adjScaled [[0, 1, 0, 0], [0, 0, 0, 1], [27, 28, 18, 20], [28, 27, 20, 18]] 96 (by decide)]
        decide)
      (basis_via_table _ _ (by decide))
      (by decide)
  | [false, true, true, false, false, false], _, hc => exact absurd hc (by decide)
  | [false, true, true, false, false, true], _, hc => exact absurd hc (by decide)
  | [false, true, true, false, true, false], _, hc => exact absurd hc (by decide)
  | [false, true, true, false, true, true], _, _ =>
    exact reconFullCol_id_of_dm _ [[245, 105, 244, 105], [1, 0, 0, 0], [0, 1, 0, 0], [41, 245, 83, 142]]
      (by
        rw [decodeMat_eq_lit,
          show ((((List.range 6).filter (fun i => ([false, true, true, false, true, true] : List Bool).getD i false)).take 4).map (fun i => encLit.getD i [])) = [[0, 1, 0, 0], [0, 0, 1, 0], [27, 28, 18, 20], [28, 27, 20, 18]] by decide,
          matInv_eq_adjScaled [[0, 1, 0, 0], [0, 0, 1, 0], [27, 28, 18, 20], [28, 27, 20, 18]] 64 (by decide)]
        decide)
      (basis_via_table _ _ (by decide))
      (by decide)
  | [false, true, true, true, false, false], _, hc => exact absurd hc (by decide)
  | [false, true, true, true, false, true], _, _ =>
    exact reconFullCol_id_of_dm _ [[70, 104, 143, 160], [1, 0, 0, 0], [0, 1, 0, 0], [0, 0, 1, 0]]
      (by
        rw [decodeMat_eq_lit,
          show ((((List.range 6).filter (fun i => ([false, true, true, true, false, true] : List Bool).getD i false)).take 4).map (fun i => encLit.getD i [])) = [[0, 1, 0, 0], [0, 0, 1, 0], [0, 0, 0, 1], [28, 27, 20, 18]] by decide,
          matInv_eq_adjScaled [[0, 1, 0, 0], [0, 0, 1, 0], [0, 0, 0, 1], [28, 27, 20, 18]] 160 (by decide)]
        decide)
      (basis_via_table _ _ (by decide))
      (by decide)
  | [false, true, true, true, true, false], _, _ =>
    exact reconFullCol_id_of_dm _ [[166, 245, 210, 128], [1, 0, 0, 0], [0, 1, 0, 0], [0, 0, 1, 0]]
      (by
        rw [decodeMat_eq_lit,
          show ((((List.range 6).filter (fun i => ([false, true, true, true, true, false] : List Bool).getD i false)).take 4).map (fun i => encLit.getD i [])) = [[0, 1, 0, 0], [0, 0, 1, 0], [0, 0, 0, 1], [27, 28, 18, 20]] by decide,
          matInv_eq_adjScaled [[0, 1, 0, 0], [0, 0, 1, 0], [0, 0, 0, 1], [27, 28, 18, 20]] 128 (by decide)]
        decide)
      (basis_via_table _ _ (by decide))
      (by decide)
  | [false, true, true, true, true, true], _, _ =>
    exact reconFullCol_id_of_dm _ [[166, 245, 210, 128], [1, 0, 0, 0], [0, 1, 0, 0], [0, 0, 1, 0]]
      (by
        rw [decodeMat_eq_lit,
          show ((((List.range 6).filter (fun i => ([false, true, true, true, true, true] : List Bool).getD i false)).take 4).map (fun i => encLit.getD i [])) = [[0, 1, 0, 0], [0, 0, 1, 0], [0, 0, 0, 1], [27, 28, 18, 20]] by decide,
          matInv_eq_adjScaled [[0, 1, 0, 0], [0, 0, 1, 0], [0, 0, 0, 1], [27, 28, 18, 20]] 128 (by decide)]
        decide)
      (basis_via_table _ _ (by decide))
      (by decide)
  | [true, false, false, false, false, false], _, hc => exact absurd hc (by decide)
  | [true, false, false, false, false, true], _, hc => exact absurd hc (by decide)
  | [true, false, false, false, true, false], _, hc => exact absurd hc (by decide)
  | [true, false, false, false, true, true], _, hc => exact absurd hc (by decide)
  | [true, false, false, true, false, false], _, hc => exact absurd hc (by decide)
  | [true, false, false, true, false, true], _, hc => exact absurd hc (by decide)
  | [true, false, false, true, true, false], _, hc => exact absurd hc (by decide)
  | [true, false, false, true, true, true], _, _ =>
    exact reconFullCol_id_of_dm _ [[1, 0, 0, 0], [245, 105, 105, 244], [41, 245, 142, 83], [0, 1, 0, 0]]
      (by
        rw [decodeMat_eq_lit,
          show ((((List.range 6).filter (fun i => ([true, false, false, true, true, true] : List Bool).getD i false)).take 4).map (fun i => encLit.getD i [])) = [[1, 0, 0, 0], [0, 0, 0, 1], [27, 28, 18, 20], [28, 27, 20, 18]] by decide,
          matInv_eq_adjScaled [[1, 0, 0, 0], [0, 0, 0, 1], [27, 28, 18, 20], [28, 27, 20, 18]] 64 (by decide)]
        decide)
      (basis_via_table _ _ (by decide))
      (by decide)
  | [true, false, true, false, false, false], _, hc => exact absurd hc (by decide)
  | [true, false, true, false, false, true], _, hc => exact absurd hc (by decide)
  | [true, false, true, false, true, false], _, hc => exact absurd hc (by decide)
  | [true, false, true, false, true, true], _, _ =>
    exact reconFullCol_id_of_dm _ [[1, 0, 0, 0], [143, 211, 142, 211], [0, 1, 0, 0], [179, 143, 201, 244]]
      (by
        rw [decodeMat_eq_lit,
          show ((((List.range 6).filter (fun i => ([true, false, true, false, true, true] : List Bool).getD i false)).take 4).map (fun i => encLit.getD i [])) = [[1, 0, 0, 0], [0, 0, 1, 0], [27, 28, 18, 20], [28, 27, 20, 18]] by decide,
          matInv_eq_adjScaled [[1, 0, 0, 0], [0, 0, 1, 0], [27, 28, 18, 20], [28, 27, 20, 18]] 96 (by decide)]
        decide)
      (basis_via_table _ _ (by decide))
      (by decide)
  | [true, false, true, true, false, false], _, hc => exact absurd hc (by decide)
  | [true, false, true, true, false, true], _, _ =>
    exact reconFullCol_id_of_dm _ [[1, 0, 0, 0], [166, 210, 245, 128], [0, 1, 0, 0], [0, 0, 1, 0]]
      (by
        rw [decodeMat_eq_lit,
          show ((((List.range 6).filter (fun i => ([true, false, true, true, false, true] : List Bool).getD i false)).take 4).map (fun i => encLit.getD i [])) = [[1, 0, 0, 0], [0, 0, 1, 0], [0, 0, 0, 1], [28, 27, 20, 18]] by decide,
          matInv_eq_adjScaled [[1, 0, 0, 0], [0, 0, 1, 0], [0, 0, 0, 1], [28, 27, 20, 18]] 128 (by decide)]
        decide)
      (basis_via_table _ _ (by decide))
      (by decide)
  | [true, false, true, true, true, false], _, _ =>
    exact reconFullCol_id_of_dm _ [[1, 0, 0, 0], [70, 143, 104, 160], [0, 1, 0, 0], [0, 0, 1, 0]]
      (by
        rw [decodeMat_eq_lit,
          show ((((List.range 6).filter (fun i => ([true, false, true, true, true, false] : List Bool).getD i false)).take 4).map (fun i => encLit.getD i [])) = [[1, 0, 0, 0], [0, 0, 1, 0], [0, 0, 0, 1], [27, 28, 18, 20]] by decide,
          matInv_eq_adjScaled [[1, 0, 0, 0], [0, 0, 1, 0], [0, 0, 0, 1], [27, 28, 18, 20]] 160 (by decide)]
        decide)
      (basis_via_table _ _ (by decide))
      (by decide)
  | [true, false, true, true, true, true], _, _ =>
    exact reconFullCol_id_of_dm _ [[1, 0, 0, 0], [70, 143, 104, 160], [0, 1, 0, 0], [0, 0, 1, 0]]
      (by
        rw [decodeMat_eq_lit,
          show ((((List.range 6).filter (fun i => ([true, false, true, true, true, true] : List Bool).getD i false)).take 4).map (fun i => encLit.getD i [])) = [[1, 0, 0, 0], [0, 0, 1, 0], [0, 0, 0, 1], [27, 28, 18, 20]] by decide,
          matInv_eq_adjScaled [[1, 0, 0, 0], [0, 0, 1, 0], [0, 0, 0, 1], [27, 28, 18, 20]] 160 (by decide)]
        decide)
      (basis_via_table _ _ (by decide))
      (by decide)
  | [true, true, false, false, false, false], _, hc => exact absurd hc (by decide)
  | [true, true, false, false, false, true], _, hc => exact absurd hc (by decide)
  | [true, true, false, false, true, false], _, hc => exact absurd hc (by decide)
  | [true, true, false, false, true, true], _, _ =>
    exact reconFullCol_id_of_dm _ [[1, 0, 0, 0], [0, 1, 0, 0], [141, 246, 123, 1], [246, 141, 1, 123]]
      (by
        rw [decodeMat_eq_lit,
          show ((((List.range 6).filter (fun i => ([true, true, false, false, true, true] : List Bool).getD i false)).take 4).map (fun i => encLit.getD i [])) = [[1, 0, 0, 0], [0, 1, 0, 0], [27, 28, 18, 20], [28, 27, 20, 18]] by decide,
          matInv_eq_adjScaled [[1, 0, 0, 0], [0, 1, 0, 0], [27, 28, 18, 20], [28, 27, 20, 18]] 224 (by decide)]
        decide)
      (basis_via_table _ _ (by decide))
      (by decide)
  | [true, true, false, true, false, false], _, hc => exact absurd hc (by decide)
  | [true, true, false, true, false, true], _, _ =>
    exact reconFullCol_id_of_dm _ [[1, 0, 0, 0], [0, 1, 0, 0], [82, 200, 123, 224], [0, 0, 1, 0]]
      (by
        rw [decodeMat_eq_lit,
          show ((((List.range 6).filter (fun i => ([true, true, false, true, false, true] : List Bool).getD i false)).take 4).map (fun i => encLit.getD i [])) = [[1, 0, 0, 0], [0, 1, 0, 0], [0, 0, 0, 1], [28, 27, 20, 18]] by decide,
          matInv_eq_adjScaled [[1, 0, 0, 0], [0, 1, 0, 0], [0, 0, 0, 1], [28, 27, 20, 18]] 224 (by decide)]
        decide)
      (basis_via_table _ _ (by decide))
      (by decide)
  | [true, true, false, true, true, false], _, _ =>
    exact reconFullCol_id_of_dm _ [[1, 0, 0, 0], [0, 1, 0, 0], [143, 245, 187, 192], [0, 0, 1, 0]]
      (by
        rw [decodeMat_eq_lit,
          show ((((List.range 6).filter (fun i => ([true, true, false, true, true, false] : List Bool).getD i false)).take 4).map (fun i => encLit.getD i [])) = [[1, 0, 0, 0], [0, 1, 0, 0], [0, 0, 0, 1], [27, 28, 18, 20]] by decide,
          matInv_eq_adjScaled [[1, 0, 0, 0], [0, 1, 0, 0], [0, 0, 0, 1], [27, 28, 18, 20]] 192 (by decide)]
        decide)
      (basis_via_table _ _ (by decide))
      (by decide)
  | [true, true, false, true, true, true], _, _ =>
    exact reconFullCol_id_of_dm _ [[1, 0, 0, 0], [0, 1, 0, 0], [143, 245, 187, 192], [0, 0, 1, 0]]
      (by
        rw [decodeMat_eq_lit,
          show ((((List.range 6).filter (fun i => ([true, true, false, true, true, true] : List Bool).getD i false)).take 4).map (fun i => encLit.getD i [])) = [[1, 0, 0, 0], [0, 1, 0, 0], [0, 0, 0, 1], [27, 28, 18, 20]] by decide,
          matInv_eq_adjScaled [[1, 0, 0, 0], [0, 1, 0, 0], [0, 0, 0, 1], [27, 28, 18, 20]] 192 (by decide)]
        decide)
      (basis_via_table _ _ (by decide))
      (by decide)
  | [true, true, true, false, false, false], _, hc => exact absurd hc (by decide)
  | [true, true, true, false, false, true], _, _ =>
    exact reconFullCol_id_of_dm _ [[1, 0, 0, 0], [0, 1, 0, 0], [0, 0, 1, 0], [245, 143, 187, 192]]
      (by
        rw [decodeMat_eq_lit,
          show ((((List.range 6).filter (fun i => ([true, true, true, false, false, true] : List Bool).getD i false)).take 4).map (fun i => encLit.getD i [])) = [[1, 0, 0, 0], [0, 1, 0, 0], [0, 0, 1, 0], [28, 27, 20, 18]] by decide,
          matInv_eq_adjScaled [[1, 0, 0, 0], [0, 1, 0, 0], [0, 0, 1, 0], [28, 27, 20, 18]] 192 (by decide)]
        decide)
      (basis_via_table _ _ (by decide))
      (by decide)
  | [true, true, true, false, true, false], _, _ =>
    exact reconFullCol_id_of_dm _ [[1, 0, 0, 0], [0, 1, 0, 0], [0, 0, 1, 0], [200, 82, 123, 224]]
      (by
        rw [decodeMat_eq_lit,
          show ((((List.range 6).filter (fun i => ([true, true, true, false, true, false] : List Bool).getD i false)).take 4).map (fun i => encLit.getD i [])) = [[1, 0, 0, 0], [0, 1, 0, 0], [0, 0, 1, 0], [27, 28, 18, 20]] by decide,
          matInv_eq_adjScaled [[1, 0, 0, 0], [0, 1, 0, 0], [0, 0, 1, 0], [27, 28, 18, 20]] 224 (by decide)]
        decide)
      (basis_via_table _ _ (by decide))
      (by decide)
  | [true, true, true, false, true, true], _, _ =>
    exact reconFullCol_id_of_dm _ [[1, 0, 0, 0], [0, 1, 0, 0], [0, 0, 1, 0], [200, 82, 123, 224]]
      (by
        rw [decodeMat_eq_lit,
          show ((((List.range 6).filter (fun i => ([true, true, true, false, true, true] : List Bool).getD i false)).take 4).map (fun i => encLit.getD i [])) = [[1, 0, 0, 0], [0, 1, 0, 0], [0, 0, 1, 0], [27, 28, 18, 20]] by decide,
          matInv_eq_adjScaled [[1, 0, 0, 0], [0, 1, 0, 0], [0, 0, 1, 0], [27, 28, 18, 20]] 224 (by decide)]
        decide)
      (basis_via_table _ _ (by decide))
      (by decide)
  | [true, true, true, true, false, false], _, _ =>
    exact reconFullCol_id_of_dm _ [[1, 0, 0, 0], [0, 1, 0, 0], [0, 0, 1, 0], [0, 0, 0, 1]]
      (by
        rw [decodeMat_eq_lit,
          show ((((List.range 6).filter (fun i => ([true, true, true, true, false, false] : List Bool).getD i false)).take 4).map (fun i => encLit.getD i [])) = [[1, 0, 0, 0], [0, 1, 0, 0], [0, 0, 1, 0], [0, 0, 0, 1]] by decide,
          matInv_eq_adjScaled [[1, 0, 0, 0], [0, 1, 0, 0], [0, 0, 1, 0], [0, 0, 0, 1]] 1 (by decide)]
        decide)
      (basis_via_table _ _ (by decide))
      (by decide)
  | [true, true, true, true, false, true], _, _ =>
    exact reconFullCol_id_of_dm _ [[1, 0, 0, 0], [0, 1, 0, 0], [0, 0, 1, 0], [0, 0, 0, 1]]
      (by
        rw [decodeMat_eq_lit,
          show ((((List.range 6).filter (fun i => ([true, true, true, true, false, true] : List Bool).getD i false)).take 4).map (fun i => encLit.getD i [])) = [[1, 0, 0, 0], [0, 1, 0, 0], [0, 0, 1, 0], [0, 0, 0, 1]] by decide,
          matInv_eq_adjScaled [[1, 0, 0, 0], [0, 1, 0, 0], [0, 0, 1, 0], [0, 0, 0, 1]] 1 (by decide)]
        decide)
      (basis_via_table _ _ (by decide))
      (by decide)
  | [true, true, true, true, true, false], _, _ =>
    exact reconFullCol_id_of_dm _ [[1, 0, 0, 0], [0, 1, 0, 0], [0, 0, 1, 0], [0, 0, 0, 1]]
      (by
        rw [decodeMat_eq_lit,
          show ((((List.range 6).filter (fun i => ([true, true, true, true, true, false] : List Bool).getD i false)).take 4).map (fun i => encLit.getD i [])) = [[1, 0, 0, 0], [0, 1, 0, 0], [0, 0, 1, 0], [0, 0, 0, 1]] by decide,
          matInv_eq_adjScaled [[1, 0, 0, 0], [0, 1, 0, 0], [0, 0, 1, 0], [0, 0, 0, 1]] 1 (by decide)]
        decide)
      (basis_via_table _ _ (by decide))
      (by decide)
  | [true, true, true, true, true, true], _, _ =>
    exact reconFullCol_id_of_dm _ [[1, 0, 0, 0], [0, 1, 0, 0], [0, 0, 1, 0], [0, 0, 0, 1]]
      (by
        rw [decodeMat_eq_lit,
          show ((((List.range 6).filter (fun i => ([true, true, true, true, true, true] : List Bool).getD i false)).take 4).map (fun i => encLit.getD i [])) = [[1, 0, 0, 0], [0, 1, 0, 0], [0, 0, 1, 0], [0, 0, 0, 1]] by decide,
          matInv_eq_adjScaled [[1, 0, 0, 0], [0, 1, 0, 0], [0, 0, 1, 0], [0, 0, 0, 1]] 1 (by decide)]
        decide)
      (basis_via_table _ _ (by decide))
      (by decide)

theorem getD_range_map {α : Type} (n i : Nat) (f : Nat → α) (d : α) (h : i < n) :
    ((List.range n).map f).getD i d = f i := by
  rw [List.getD_eq_getElem?_getD, List.getElem?_map, List.getElem?_range h]
  rfl


theorem getD_range_map_ge {α : Type} (n i : Nat) (f : Nat → α) (d : α) (h : n ≤ i) :
    ((List.range n).map f).getD i d = d := by
  rw [List.getD_eq_getElem?_getD, List.getElem?_map,
    List.getElem?_eq_none (by simpa using h)]
  rfl


theorem map_getD_range_self {α : Type} (l : List α) (d : α) (n : Nat)
    (h : l.length = n) : (List.range n).map (fun j => l.getD j d) = l := by
  apply List.ext_getElem
  · simp [h]
  · intro i h1 h2
    simp only [List.getElem_map, List.getElem_range]
    rw [List.getD_eq_getElem?_getD, List.getElem?_eq_getElem h2]
    rfl


theorem take_range_map {α : Type} (n m : Nat) (f : Nat → α) (h : m ≤ n) :
    ((List.range n).map f).take m = (List.range m).map f := by
  rw [← List.map_take, List.take_range, Nat.min_eq_left h]


theorem headD_mem {α : Type} (l : List α) (d : α) (h : l ≠ []) : l.headD d ∈ l := by
  cases l with
  | nil => exact absurd rfl h
  | cons a t => exact List.mem_cons_self a t


theorem filterMap_ite {α : Type} (l : List Nat) (p : Nat → Prop) [DecidablePred p]
    (f : Nat → α) :
    (l.filterMap (fun k => if p k then some (f k) else none))
      = (l.filter (fun k => decide (p k))).map f := by
  induction l with
  | nil => rfl
  | cons a t ih =>
    by_cases h : p a
    · rw [List.filterMap_cons, List.filter_cons]
      simp [h, ih]
    · rw [List.filterMap_cons, List.filter_cons]
      simp [h, ih]


theorem fullCol_length (x : List Nat) : (fullCol x).length = x.length + 2 := by
  simp [fullCol]


theorem fullCol_getD_data (x : List Nat) (i : Nat) (hi : i < x.length) :
    (fullCol x).getD i 0 = x.getD i 0 := by
  unfold fullCol
  rw [List.getD_eq_getElem?_getD, List.getD_eq_getElem?_getD,
    List.getElem?_append_left hi]


theorem fullCol_getD_parity (x : List Nat) (r : Nat) (hr : r < 2) :
    (fullCol x).getD (x.length + r) 0 = dot (parityRow r) x := by
  unfold fullCol
  rw [List.getD_eq_getElem?_getD,
    List.getElem?_append_right (by omega),
    show x.length + r - x.length = r from by omega]
  interval_cases r
  · rfl
  · rfl


theorem colAt_length (rows : List (List Nat)) (j : Nat) :
    (colAt rows j).length = rows.length := by
  simp [colAt]


theorem colAt_getD (rows : List (List Nat)) (j i : Nat) (hi : i < rows.length) :
    (colAt rows j).getD i 0 = (rows.getD i []).getD j 0 := by
  simp [colAt, List.getD_eq_getElem?_getD, List.getElem?_map,
    List.getElem?_eq_getElem hi]


theorem colAt_range_map (n : Nat) (f : Nat → List Nat) (j : Nat) :
    colAt ((List.range n).map f) j = (List.range n).map (fun i => (f i).getD j 0) := by
  unfold colAt
  rw [List.map_map]
  rfl


/-- The decoder's column map reads its input only at present positions. -/
theorem reconFullColD_congr (dm : List (List Nat)) (pres : List Bool) (y y' : List Nat)
    (h : ∀ i, i < 6 → pres.getD i false = true → y.getD i 0 = y'.getD i 0) :
    reconFullColD dm pres y = reconFullColD dm pres y' := by
  unfold reconFullColD
  dsimp only
  have hidxs : ∀ i ∈ ((List.range 6).filter (fun i => pres.getD i false)).take 4,
      i < 6 ∧ pres.getD i false = true := by
    intro i hi
    have hi2 := List.mem_of_mem_take hi
    rw [List.mem_filter, List.mem_range] at hi2
    exact hi2
  have hysub : (((List.range 6).filter (fun i => pres.getD i false)).take 4).map
        (fun i => y.getD i 0)
      = (((List.range 6).filter (fun i => pres.getD i false)).take 4).map
        (fun i => y'.getD i 0) := by
    apply List.map_congr_left
    intro i hi
    exact h i (hidxs i hi).1 (hidxs i hi).2
  have hxfill : (List.range 4).map (fun r =>
        if pres.getD r false then y.getD r 0
        else dot (dm.getD r []) ((((List.range 6).filter (fun i => pres.getD i false)).take 4).map (fun i => y.getD i 0)))
      = (List.range 4).map (fun r =>
        if pres.getD r false then y'.getD r 0
        else dot (dm.getD r []) ((((List.range 6).filter (fun i => pres.getD i false)).take 4).map (fun i => y'.getD i 0))) := by
    apply List.map_congr_left
    intro r hr
    rw [List.mem_range] at hr
    by_cases hp : pres.getD r false
    · simp only [hp, if_true]
      exact h r (by omega) hp
    · simp only [hp, if_false, hysub]
      simp
  apply List.map_congr_left
  intro i hi
  rw [List.mem_range] at hi
  by_cases hp : pres.getD i false
  · simp only [hp, if_true]
    exact h i hi hp
  · simp only [hp, if_false, hxfill]
    simp


theorem reconFullCol_congr (pres : List Bool) (y y' : List Nat)
    (h : ∀ i, i < 6 → pres.getD i false = true → y.getD i 0 = y'.getD i 0) :
    reconFullCol pres y = reconFullCol pres y' :=
  reconFullColD_congr (decodeMat pres) pres y y' h


theorem rsSplit_ok (data : List Nat) (hpos : 0 < data.length) :
    rsSplit data = .ok (dataRowsOf data) := by
  unfold rsSplit dataRowsOf paddedOf psOf
  rw [if_neg (by omega)]


theorem psOf_pos (n : Nat) (h : 0 < n) : 0 < psOf n := by
  unfold psOf DataShards
  omega


theorem le_four_psOf (n : Nat) : n ≤ 4 * psOf n := by
  unfold psOf DataShards
  omega


theorem paddedOf_length (data : List Nat) :
    (paddedOf data).length = 4 * psOf data.length := by
  unfold paddedOf DataShards
  have := le_four_psOf data.length
  simp
  omega


theorem paddedOf_bytes (data : List Nat) (hb : ∀ b ∈ data, b < 256) :
    ∀ b ∈ paddedOf data, b < 256 := by
  intro b hbm
  unfold paddedOf at hbm
  rcases List.mem_append.mp hbm with h | h
  · exact hb b h
  · rw [List.eq_of_mem_replicate h]
    omega


theorem dataRowsOf_length (data : List Nat) : (dataRowsOf data).length = 4 := by
  unfold dataRowsOf DataShards
  simp


theorem dataRowsOf_getD (data : List Nat) (i : Nat) (hi : i < 4) :
    (dataRowsOf data).getD i []
      = ((paddedOf data).drop (i * psOf data.length)).take (psOf data.length) := by
  unfold dataRowsOf
  exact getD_range_map DataShards i _ [] hi


theorem dataRowsOf_row_length (data : List Nat) (i : Nat) (hi : i < 4) :
    ((dataRowsOf data).getD i []).length = psOf data.length := by
  rw [dataRowsOf_getD data i hi]
  rw [List.length_take, List.length_drop, paddedOf_length]
  have h4 : i * psOf data.length + psOf data.length ≤ 4 * psOf data.length := by
    have := Nat.mul_le_mul_right (psOf data.length) (show i + 1 ≤ 4 by omega)
    simpa [Nat.succ_mul] using this
  omega


theorem getD_zero_or_mem {α : Type} (l : List α) (j : Nat) (d : α) :
    l.getD j d = d ∨ l.getD j d ∈ l := by
  rcases Nat.lt_or_ge j l.length with h | h
  · right
    rw [List.getD_eq_getElem?_getD, List.getElem?_eq_getElem h]
    exact List.getElem_mem h
  · left
    rw [List.getD_eq_getElem?_getD, List.getElem?_eq_none (by simpa using h)]
    rfl


theorem colAt_dataRowsOf_length (data : List Nat) (j : Nat) :
    (colAt (dataRowsOf data) j).length = 4 := by
  rw [colAt_length, dataRowsOf_length]


theorem colAt_dataRowsOf_bytes (data : List Nat) (hb : ∀ b ∈ data, b < 256)
    (j : Nat) : ∀ b ∈ colAt (dataRowsOf data) j, b < 256 := by
  intro b hbm
  unfold colAt at hbm
  rcases List.mem_map.mp hbm with ⟨row, hrow, hval⟩
  rcases getD_zero_or_mem row j 0 with h0 | hmem
  · omega
  · unfold dataRowsOf at hrow
    rcases List.mem_map.mp hrow with ⟨i, _, hieq⟩
    subst hieq
    rw [← hval]
    exact paddedOf_bytes data hb _
      (List.mem_of_mem_drop (List.mem_of_mem_take hmem))


theorem rsEncode_getD (dr : List (List Nat)) (i : Nat) (hi : i < 6) :
    (rsEncode dr).getD i []
      = (List.range ((dr.getD 0 []).length)).map
          (fun j => (fullCol (colAt dr j)).getD i 0) := by
  unfold rsEncode
  exact getD_range_map TotalShards i _ [] (by unfold TotalShards DataShards ParityShards; omega)


theorem rowsOf_row_length (data : List Nat) (i : Nat)
    (hi : i < 6) : ((rowsOf data).getD i []).length = psOf data.length := by
  unfold rowsOf
  rw [rsEncode_getD _ i hi, List.length_map, List.length_range,
    dataRowsOf_row_length data 0 (by omega)]


theorem rowsOf_data_row (data : List Nat) (i : Nat) (hi : i < 4) :
    (rowsOf data).getD i [] = (dataRowsOf data).getD i [] := by
  unfold rowsOf
  rw [rsEncode_getD _ i (by omega)]
  have hstep : (List.range ((dataRowsOf data).getD 0 [] |>.length)).map
        (fun j => (fullCol (colAt (dataRowsOf data) j)).getD i 0)
      = (List.range ((dataRowsOf data).getD 0 [] |>.length)).map
        (fun j => ((dataRowsOf data).getD i []).getD j 0) := by
    apply List.map_congr_left
    intro j _
    rw [fullCol_getD_data _ i (by rw [colAt_dataRowsOf_length]; omega),
      colAt_getD _ j i (by rw [dataRowsOf_length]; omega)]
  rw [hstep, dataRowsOf_row_length data 0 (by omega),
    map_getD_range_self _ 0 _ (dataRowsOf_row_length data i hi)]


theorem colAt_rowsOf (data : List Nat) (j : Nat) (hj : j < psOf data.length) :
    colAt (rowsOf data) j = fullCol (colAt (dataRowsOf data) j) := by
  unfold rowsOf rsEncode
  rw [colAt_range_map]
  have hps0 : ((dataRowsOf data).getD 0 []).length = psOf data.length :=
    dataRowsOf_row_length data 0 (by omega)
  have hstep : (List.range TotalShards).map (fun i =>
        ((List.range (((dataRowsOf data).getD 0 []).length)).map
          (fun j2 => (fullCol (colAt (dataRowsOf data) j2)).getD i 0)).getD j 0)
      = (List.range TotalShards).map (fun i =>
        (fullCol (colAt (dataRowsOf data) j)).getD i 0) := by
    apply List.map_congr_left
    intro i _
    rw [getD_range_map _ j _ 0 (by omega)]
  rw [hstep]
  apply map_getD_range_self
  rw [fullCol_length, colAt_dataRowsOf_length]
  rfl


/-- The fill loop, characterized: with in-range, pairwise-distinct
indices all landing on free slots, it succeeds and the result holds each
shard's data at its index, other slots unchanged. -/
theorem fillShards_char (sub : List Shard) :
    ∀ acc : List (Option (List Nat)), acc.length = 6 →
    (∀ s ∈ sub, 0 ≤ s.ShardIndex ∧ s.ShardIndex < 6) →
    (sub.map (fun s => s.ShardIndex)).Nodup →
    (∀ s ∈ sub, acc.getD s.ShardIndex.toNat none = none) →
    ∃ out : List (Option (List Nat)),
      fillShards sub acc = .ok out ∧ out.length = 6 ∧
      ∀ k, k < 6 →
        out.getD k none
          = match sub.find? (fun s => s.ShardIndex == (k : Int)) with
            | some s => some s.Data
            | none => acc.getD k none := by
  induction sub with
  | nil =>
    intro acc hlen _ _ _
    exact ⟨acc, rfl, hlen, fun k _ => by simp [List.find?]⟩
  | cons s rest ih =>
    intro acc hlen hrange hnodup hfree
    have hs := hrange s (List.mem_cons_self s rest)
    have hsetlen : (acc.set s.ShardIndex.toNat (some s.Data)).length = 6 := by
      rw [List.length_set]
      exact hlen
    have hsnat : s.ShardIndex.toNat < 6 := by omega
    have hrest := ih (acc.set s.ShardIndex.toNat (some s.Data)) hsetlen
      (fun t ht => hrange t (List.mem_cons_of_mem s ht))
      (List.Nodup.of_cons (by simpa using hnodup))
      (by
        intro t ht
        have htidx : t.ShardIndex ≠ s.ShardIndex := by
          intro he
          rw [List.map_cons, List.nodup_cons] at hnodup
          exact hnodup.1 (he ▸ List.mem_map_of_mem (fun u => u.ShardIndex) ht)
        have ht6 := hrange t (List.mem_cons_of_mem s ht)
        have hne : t.ShardIndex.toNat ≠ s.ShardIndex.toNat := by omega
        rw [List.getD_eq_getElem?_getD, List.getElem?_set_ne (Ne.symm hne),
          ← List.getD_eq_getElem?_getD]
        exact hfree t (List.mem_cons_of_mem s ht))
    rcases hrest with ⟨out, hfill, hoeln, hochar⟩
    refine ⟨out, ?_, hoeln, ?_⟩
    · show fillShards (s :: rest) acc = .ok out
      unfold fillShards
      have h6 : ((TotalShards : Nat) : Int) = 6 := by decide
      rw [if_neg (by rw [h6]; omega), if_neg (by
        rw [hfree s (List.mem_cons_self s rest)]
        simp)]
      exact hfill
    · intro k hk
      rw [hochar k hk, List.find?_cons]
      by_cases hek : s.ShardIndex == (k : Int)
      · simp only [hek]
        have hkeq : s.ShardIndex.toNat = k := by
          have : s.ShardIndex = (k : Int) := by simpa using hek
          omega
        have hnone : rest.find? (fun t => t.ShardIndex == (k : Int)) = none := by
          rw [List.find?_eq_none]
          intro t ht hbt
          rw [List.map_cons, List.nodup_cons] at hnodup
          have : t.ShardIndex = (k : Int) := by simpa using hbt
          have hse : s.ShardIndex = (k : Int) := by simpa using hek
          exact hnodup.1 ((hse.trans this.symm) ▸
            List.mem_map_of_mem (fun u => u.ShardIndex) ht)
        rw [hnone, ← hkeq, List.getD_eq_getElem?_getD,
          List.getElem?_set_self (by omega)]
        rfl
      · simp only [hek]
        cases hfind : rest.find? (fun t => t.ShardIndex == (k : Int)) with
        | some t => rfl
        | none =>
          have hne : s.ShardIndex.toNat ≠ k := by
            intro he
            apply hek
            have : s.ShardIndex = (k : Int) := by omega
            simpa using this
          rw [List.getD_eq_getElem?_getD, List.getElem?_set_ne hne,
            ← List.getD_eq_getElem?_getD]


theorem ShardChunk_ok (hashF : List Nat → String) (chunk : Chunk) (data : List Nat)
    (hsz : chunk.Size = (data.length : Int)) (hpos : 0 < data.length) :
    ShardChunk hashF chunk data = .ok (shardsOf hashF chunk data) := by
  unfold ShardChunk
  rw [if_neg (by omega), rsSplit_ok data hpos]
  rfl


theorem shardsOf_length (hashF : List Nat → String) (chunk : Chunk) (data : List Nat) :
    (shardsOf hashF chunk data).length = TotalShards := by
  unfold shardsOf
  simp


theorem mem_shardsOf (hashF : List Nat → String) (chunk : Chunk) (data : List Nat)
    (s : Shard) (hs : s ∈ shardsOf hashF chunk data) :
    ∃ i : Nat, i < 6 ∧ s.ChunkIndex = chunk.Index ∧ s.ShardIndex = (i : Int) ∧
      s.Data = (rowsOf data).getD i [] ∧ s.Hash = hashF ((rowsOf data).getD i []) := by
  unfold shardsOf at hs
  rcases List.mem_map.mp hs with ⟨i, hir, heq⟩
  rw [List.mem_range] at hir
  refine ⟨i, by
    have h6 : TotalShards = 6 := by decide
    omega, ?_, ?_, ?_, ?_⟩ <;> rw [← heq]


theorem getD_replicate_none {α : Type} (n k : Nat) :
    (List.replicate n (none : Option α)).getD k none = none := by
  rcases getD_zero_or_mem (List.replicate n (none : Option α)) k none with h | h
  · exact h
  · exact List.eq_of_mem_replicate h


theorem sub_range (hashF : List Nat → String) (chunk : Chunk) (data : List Nat)
    (sub : List Shard) (hsub : ∀ s ∈ sub, s ∈ shardsOf hashF chunk data) :
    ∀ s ∈ sub, 0 ≤ s.ShardIndex ∧ s.ShardIndex < 6 := by
  intro s hs
  rcases mem_shardsOf hashF chunk data s (hsub s hs) with ⟨i, hi, _, hidx, _, _⟩
  omega


theorem fillShards_shardsOf (hashF : List Nat → String) (chunk : Chunk)
    (data : List Nat) (sub : List Shard)
    (hsub : ∀ s ∈ sub, s ∈ shardsOf hashF chunk data)
    (hnd : (subIdxs sub).Nodup) :
    fillShards sub (List.replicate TotalShards none)
      = .ok ((List.range 6).map (fun k : Nat =>
          if (k : Int) ∈ subIdxs sub then some ((rowsOf data).getD k []) else none)) := by
  have hreplen : (List.replicate TotalShards (none : Option (List Nat))).length = 6 := by
    simp [TotalShards, DataShards, ParityShards]
  rcases fillShards_char sub (List.replicate TotalShards none) hreplen
      (sub_range hashF chunk data sub hsub) hnd
      (fun s _ => getD_replicate_none TotalShards s.ShardIndex.toNat)
    with ⟨out, hfill, hlen, hchar⟩
  rw [hfill]
  congr 1
  rw [show out = (List.range 6).map (fun k => out.getD k none) from
    (map_getD_range_self out none 6 hlen).symm]
  apply List.map_congr_left
  intro k hk
  rw [List.mem_range] at hk
  rw [hchar k hk]
  cases hfind : sub.find? (fun s => s.ShardIndex == (k : Int)) with
  | some s0 =>
    have hpred := List.find?_some hfind
    have hmem := List.mem_of_find?_eq_some hfind
    have hidx : s0.ShardIndex = (k : Int) := by simpa using hpred
    rw [if_pos (hidx ▸ List.mem_map_of_mem (fun s => s.ShardIndex) hmem)]
    rcases mem_shardsOf hashF chunk data s0 (hsub s0 hmem) with ⟨i, _, _, hieq, hdata, _⟩
    have hik : i = k := by omega
    show some s0.Data = some ((rowsOf data).getD k [])
    rw [hdata, hik]
  | none =>
    have hnone := List.find?_eq_none.mp hfind
    rw [if_neg (by
      intro hmem
      rcases List.mem_map.mp hmem with ⟨s1, hs1, hs1e⟩
      exact absurd (by simpa using hs1e : s1.ShardIndex == (k : Int)) (by
        simpa using hnone s1 hs1))]
    exact getD_replicate_none TotalShards k


theorem rowsOf_length (data : List Nat) : (rowsOf data).length = 6 := by
  unfold rowsOf rsEncode
  simp [TotalShards, DataShards, ParityShards]


theorem count_filter_mem (sub : List Shard)
    (hrange : ∀ s ∈ sub, 0 ≤ s.ShardIndex ∧ s.ShardIndex < 6)
    (hnd : (subIdxs sub).Nodup) (hlen4 : 4 ≤ sub.length) :
    4 ≤ ((List.range 6).filter
      (fun k : Nat => decide ((k : Int) ∈ subIdxs sub))).length := by
  have hnodup2 : ((subIdxs sub).map Int.toNat).Nodup := by
    apply List.Nodup.map_on ?_ hnd
    intro x hx y hy hxy
    rcases List.mem_map.mp hx with ⟨s1, hs1, he1⟩
    rcases List.mem_map.mp hy with ⟨s2, hs2, he2⟩
    have h1 := hrange s1 hs1
    have h2 := hrange s2 hs2
    omega
  have hsubset : (subIdxs sub).map Int.toNat
      ⊆ (List.range 6).filter (fun k => decide ((k : Int) ∈ subIdxs sub)) := by
    intro x hx
    rcases List.mem_map.mp hx with ⟨idx, hidx, he⟩
    rcases List.mem_map.mp hidx with ⟨s1, hs1, he1⟩
    have h1 := hrange s1 hs1
    rw [List.mem_filter, List.mem_range]
    constructor
    · omega
    · have : (x : Int) = idx := by omega
      rw [this]
      simpa using hidx
  have hle := (List.subperm_of_subset hnodup2 hsubset).length_le
  have h2 : (subIdxs sub).length = sub.length := List.length_map _ _
  rw [List.length_map, h2] at hle
  omega


theorem rsReconstruct_shardDataOf (data : List Nat) (sub : List Shard)
    (hpos : 0 < data.length) (hbytes : ∀ b ∈ data, b < 256)
    (hrange : ∀ s ∈ sub, 0 ≤ s.ShardIndex ∧ s.ShardIndex < 6)
    (hnd : (subIdxs sub).Nodup) (hlen4 : 4 ≤ sub.length) :
    rsReconstruct (shardDataOf sub data) = .ok (rowsOf data) := by
  have hcnt := count_filter_mem sub hrange hnd hlen4
  have hpresent : (shardDataOf sub data).filterMap id
      = ((List.range 6).filter (fun k : Nat => decide ((k : Int) ∈ subIdxs sub))).map
          (fun k => (rowsOf data).getD k []) := by
    unfold shardDataOf
    rw [List.filterMap_map,
      show (id ∘ fun k : Nat =>
          if (k : Int) ∈ subIdxs sub then some ((rowsOf data).getD k []) else none)
        = (fun k : Nat =>
          if (k : Int) ∈ subIdxs sub then some ((rowsOf data).getD k []) else none)
        from funext (fun k => rfl)]
    exact filterMap_ite (List.range 6) (fun k : Nat => (k : Int) ∈ subIdxs sub)
      (fun k => (rowsOf data).getD k [])
  have hplen : 4 ≤ ((shardDataOf sub data).filterMap id).length := by
    rw [hpresent, List.length_map]
    exact hcnt
  have hfl_lt6 : ∀ k ∈ (List.range 6).filter
      (fun k : Nat => decide ((k : Int) ∈ subIdxs sub)), k < 6 := by
    intro k hk
    have := List.mem_filter.mp hk
    rw [List.mem_range] at this
    exact this.1
  have hps : (((shardDataOf sub data).filterMap id).getD 0 []).length
      = psOf data.length := by
    rw [hpresent]
    cases hfl : (List.range 6).filter
        (fun k : Nat => decide ((k : Int) ∈ subIdxs sub)) with
    | nil =>
      rw [hpresent, hfl] at hplen
      simp at hplen
    | cons k0 t =>
      show ((rowsOf data).getD k0 []).length = psOf data.length
      exact rowsOf_row_length data k0
        (hfl_lt6 k0 (hfl ▸ List.mem_cons_self k0 t))
  have hall : ((shardDataOf sub data).filterMap id).all
      (fun s => s.length = (((shardDataOf sub data).filterMap id).getD 0 []).length)
      = true := by
    rw [List.all_eq_true]
    intro row hrow
    rw [hpresent] at hrow
    rcases List.mem_map.mp hrow with ⟨k, hk, hke⟩
    rw [← hke, hps]
    simp only [decide_eq_true_eq]
    exact rowsOf_row_length data k (hfl_lt6 k hk)
  have hpres : (shardDataOf sub data).map Option.isSome
      = (List.range 6).map (fun k : Nat => decide ((k : Int) ∈ subIdxs sub)) := by
    unfold shardDataOf
    rw [List.map_map]
    apply List.map_congr_left
    intro k _
    by_cases h : (k : Int) ∈ subIdxs sub
    · simp [h]
    · simp [h]
  have hprescnt : 4 ≤ (((shardDataOf sub data).map Option.isSome).filter
      (fun b => b)).length := by
    rw [hpres, List.filter_map]
    rw [List.length_map]
    have he : ((List.range 6).filter
          ((fun b => b) ∘ fun k : Nat => decide ((k : Int) ∈ subIdxs sub)))
        = ((List.range 6).filter (fun k : Nat => decide ((k : Int) ∈ subIdxs sub))) := by
      apply List.filter_congr
      intro k _
      rfl
    rw [he]
    exact hcnt
  have hpreslen : ((shardDataOf sub data).map Option.isSome).length = 6 := by
    rw [hpres]
    simp
  have hpres_getD : ∀ i : Nat, i < 6 →
      (((shardDataOf sub data).map Option.isSome).getD i false = true
        ↔ (i : Int) ∈ subIdxs sub) := by
    intro i hi
    rw [hpres, getD_range_map 6 i _ false hi]
    simp
  have hfilled_getD : ∀ i : Nat, i < 6 → (i : Int) ∈ subIdxs sub →
      (((shardDataOf sub data).map (fun o => o.getD [])).getD i [])
        = (rowsOf data).getD i [] := by
    intro i hi hmem
    have hsd : (shardDataOf sub data)[i]? = some (some ((rowsOf data).getD i [])) := by
      unfold shardDataOf
      rw [List.getElem?_map, List.getElem?_range hi]
      show some (if (i : Int) ∈ subIdxs sub
        then some ((rowsOf data).getD i []) else none) = _
      rw [if_pos hmem]
    rw [List.getD_eq_getElem?_getD, List.getElem?_map, hsd]
    rfl
  have hfilled_len : ((shardDataOf sub data).map (fun o => o.getD [])).length = 6 := by
    unfold shardDataOf
    simp
  have hcol : ∀ j : Nat, j < psOf data.length →
      reconFullCol ((shardDataOf sub data).map Option.isSome)
          (colAt ((shardDataOf sub data).map (fun o => o.getD [])) j)
        = fullCol (colAt (dataRowsOf data) j) := by
    intro j hj
    have hcongr := reconFullCol_congr ((shardDataOf sub data).map Option.isSome)
      (colAt ((shardDataOf sub data).map (fun o => o.getD [])) j)
      (colAt (rowsOf data) j)
      (by
        intro i hi hpt
        have hmem := (hpres_getD i hi).mp hpt
        rw [colAt_getD _ j i (by rw [hfilled_len]; omega),
          colAt_getD _ j i (by rw [rowsOf_length]; omega),
          hfilled_getD i hi hmem])
    rw [hcongr, colAt_rowsOf data j hj]
    exact reconFullCol_id ((shardDataOf sub data).map Option.isSome) hpreslen
      hprescnt (colAt (dataRowsOf data) j) (colAt_dataRowsOf_length data j)
      (colAt_dataRowsOf_bytes data hbytes j)
  show rsReconstruct (shardDataOf sub data) = .ok (rowsOf data)
  unfold rsReconstruct
  rw [if_neg (by
    simp only [DataShards]
    omega), if_pos hall]
  dsimp only
  rw [hps]
  unfold rowsOf rsEncode
  rw [dataRowsOf_row_length data 0 (by omega)]
  congr 1
  apply List.map_congr_left
  intro i _
  apply List.map_congr_left
  intro j hj
  rw [List.mem_range] at hj
  rw [hcol j hj]


theorem rowsOf_take_data (data : List Nat) :
    (rowsOf data).take 4 = dataRowsOf data := by
  have h1 : (rowsOf data).take 4
      = (List.range 4).map (fun i =>
          (List.range (((dataRowsOf data).getD 0 []).length)).map
            (fun j => (fullCol (colAt (dataRowsOf data) j)).getD i 0)) := by
    unfold rowsOf rsEncode
    exact take_range_map TotalShards 4 _ (by decide)
  rw [h1]
  have h2 : ∀ i ∈ List.range 4,
      (List.range (((dataRowsOf data).getD 0 []).length)).map
        (fun j => (fullCol (colAt (dataRowsOf data) j)).getD i 0)
      = (dataRowsOf data).getD i [] := by
    intro i hi
    rw [List.mem_range] at hi
    have := rowsOf_data_row data i hi
    unfold rowsOf at this
    rw [rsEncode_getD (dataRowsOf data) i (by omega)] at this
    exact this
  rw [List.map_congr_left h2]
  exact map_getD_range_self (dataRowsOf data) [] 4 (dataRowsOf_length data)


theorem flatten_dataRowsOf (data : List Nat) :
    (dataRowsOf data).flatten = paddedOf data := by
  have hlen := paddedOf_length data
  have hshape : dataRowsOf data
      = [((paddedOf data).drop (0 * psOf data.length)).take (psOf data.length),
         ((paddedOf data).drop (1 * psOf data.length)).take (psOf data.length),
         ((paddedOf data).drop (2 * psOf data.length)).take (psOf data.length),
         ((paddedOf data).drop (3 * psOf data.length)).take (psOf data.length)] := by
    unfold dataRowsOf DataShards
    rfl
  rw [hshape]
  have hps : psOf data.length = psOf data.length := rfl
  set l := paddedOf data with hl
  set ps := psOf data.length with hp
  have hd3 : (l.drop (3 * ps)).take ps = l.drop (3 * ps) := by
    apply List.take_of_length_le
    rw [List.length_drop, hlen]
    omega
  show (l.drop (0 * ps)).take ps ++ ((l.drop (1 * ps)).take ps
      ++ ((l.drop (2 * ps)).take ps ++ ((l.drop (3 * ps)).take ps ++ []))) = l
  rw [hd3, List.append_nil]
  rw [show (0 : Nat) * ps = 0 from by omega, List.drop_zero,
    show (1 : Nat) * ps = ps from by omega]
  have e3 : l.drop (3 * ps) = (l.drop (2 * ps)).drop ps := by
    rw [List.drop_drop]
    rw [show 2 * ps + ps = 3 * ps from by omega]
  have e2 : l.drop (2 * ps) = (l.drop ps).drop ps := by
    rw [List.drop_drop]
    rw [show ps + ps = 2 * ps from by omega]

  rw [e3, List.take_append_drop]
  rw [e2, List.take_append_drop]
  exact List.take_append_drop ps l


theorem rsJoin_rowsOf (data : List Nat) :
    rsJoin (rowsOf data) data.length = .ok data := by
  unfold rsJoin
  have hdb : ((rowsOf data).take DataShards).flatten = paddedOf data := by
    rw [show DataShards = 4 from rfl, rowsOf_take_data, flatten_dataRowsOf]
  rw [hdb]
  rw [if_neg (by
    rw [paddedOf_length]
    have := le_four_psOf data.length
    omega)]
  congr 1
  unfold paddedOf
  exact List.take_left data _


theorem rsVerify_rowsOf (data : List Nat) : rsVerify (rowsOf data) = true := by
  unfold rsVerify
  rw [List.all_eq_true]
  intro j hj
  rw [List.mem_range, rowsOf_row_length data 0 (by omega)] at hj
  rw [List.all_eq_true]
  intro r hr
  rw [List.mem_range] at hr
  have hr2 : r < 2 := by
    have : ParityShards = 2 := rfl
    omega
  have hxlen : (colAt (dataRowsOf data) j).length = 4 := colAt_dataRowsOf_length data j
  have hparity : ((rowsOf data).getD (DataShards + r) []).getD j 0
      = dot (parityRow r) (colAt (dataRowsOf data) j) := by
    rw [show DataShards = 4 from rfl]
    unfold rowsOf
    rw [rsEncode_getD (dataRowsOf data) (4 + r) (by omega),
      getD_range_map _ j _ 0 (by rw [dataRowsOf_row_length data 0 (by omega)]; omega)]
    rw [show (4 : Nat) + r = (colAt (dataRowsOf data) j).length + r from by rw [hxlen]]
    exact fullCol_getD_parity (colAt (dataRowsOf data) j) r hr2
  have hcoltake : colAt ((rowsOf data).take DataShards) j = colAt (dataRowsOf data) j := by
    rw [show DataShards = 4 from rfl, rowsOf_take_data]
  rw [hparity, hcoltake]
  simp


theorem scanShards_none (hashF : List Nat → String) (ec : Int) :
    ∀ sub : List Shard,
    (∀ s ∈ sub, s.ChunkIndex = ec ∧ VerifyShard hashF s.Data s.Hash = true) →
    scanShards hashF ec sub = none := by
  intro sub
  induction sub with
  | nil => intro _; rfl
  | cons s rest ih =>
    intro h
    have hs := h s (List.mem_cons_self s rest)
    unfold scanShards
    rw [if_neg (by simp [hs.1]), if_neg (by simp [hs.2])]
    exact ih (fun t ht => h t (List.mem_cons_of_mem s ht))


/-- C1: for every chunk and ciphertext of matching nonzero size (bytes
below 256), `ShardChunk` produces six shards, and every subset of at
least four of them with pairwise-distinct shard indices reconstructs
the exact ciphertext. -/
theorem shardReconstruct_C1 (hashF : List Nat → String) (chunk : Chunk)
    (cipher : List Nat) (hsz : chunk.Size = (cipher.length : Int))
    (hpos : 0 < cipher.length) (hbytes : ∀ b ∈ cipher, b < 256) :
    ∃ shards : List Shard,
      ShardChunk hashF chunk cipher = .ok shards ∧
      shards.length = TotalShards ∧
      ∀ sub : List Shard, (∀ s ∈ sub, s ∈ shards) → (subIdxs sub).Nodup →
        DataShards ≤ sub.length →
        ReconstructChunk hashF sub (cipher.length : Int) = .ok cipher := by
  refine ⟨shardsOf hashF chunk cipher, ShardChunk_ok hashF chunk cipher hsz hpos,
    shardsOf_length hashF chunk cipher, ?_⟩
  intro sub hsub hnd hlen4
  have hlen4' : 4 ≤ sub.length := by
    have h4 : DataShards = 4 := rfl
    omega
  have hne : sub ≠ [] := by
    intro h
    rw [h] at hlen4'
    simp at hlen4'
  unfold ReconstructChunk
  rw [if_neg (by
      have h4 : DataShards = 4 := rfl
      omega),
    if_neg (by omega)]
  have hscan : scanShards hashF ((sub.headD ⟨0, 0, [], "", 0⟩).ChunkIndex) sub
      = none := by
    apply scanShards_none
    intro s hs
    rcases mem_shardsOf hashF chunk cipher s (hsub s hs) with
      ⟨i, _, hci, _, hdata, hhash⟩
    refine ⟨?_, ?_⟩
    · rcases mem_shardsOf hashF chunk cipher _
        (hsub _ (headD_mem sub ⟨0, 0, [], "", 0⟩ hne)) with ⟨i0, _, hci0, _, _, _⟩
      rw [hci, hci0]
    · unfold VerifyShard
      rw [hdata, hhash]
      simp
  rw [hscan]
  show (fillShards sub (List.replicate TotalShards none) >>= fun shardData =>
      rsReconstruct shardData >>= fun rows =>
      if rsVerify rows then rsJoin rows ((cipher.length : Int)).toNat
      else .error .verifyFailed) = .ok cipher
  rw [fillShards_shardsOf hashF chunk cipher sub hsub hnd]
  show (rsReconstruct (shardDataOf sub cipher) >>= fun rows =>
      if rsVerify rows then rsJoin rows ((cipher.length : Int)).toNat
      else .error .verifyFailed) = .ok cipher
  rw [rsReconstruct_shardDataOf cipher sub hpos hbytes
    (sub_range hashF chunk cipher sub hsub) hnd hlen4']
  show (if rsVerify (rowsOf cipher) then
      rsJoin (rowsOf cipher) ((cipher.length : Int)).toNat
      else .error .verifyFailed) = .ok cipher
  rw [rsVerify_rowsOf cipher]
  show rsJoin (rowsOf cipher) ((cipher.length : Int)).toNat = .ok cipher
  rw [Int.toNat_natCast]
  exact rsJoin_rowsOf cipher


theorem shardReconstruct_C1_witness :
    (⟨0, [], "", 4⟩ : Chunk).Size = (([1, 2, 3, 4] : List Nat).length : Int) ∧
    0 < ([1, 2, 3, 4] : List Nat).length ∧
    (∀ b ∈ ([1, 2, 3, 4] : List Nat), b < 256) ∧
    (∃ shards : List Shard,
      ShardChunk (fun _ => "h") ⟨0, [], "", 4⟩ [1, 2, 3, 4] = .ok shards ∧
      shards.length = TotalShards ∧
      ∀ sub : List Shard, (∀ s ∈ sub, s ∈ shards) → (subIdxs sub).Nodup →
        DataShards ≤ sub.length →
        ReconstructChunk (fun _ => "h") sub (([1, 2, 3, 4] : List Nat).length : Int)
          = .ok [1, 2, 3, 4]) :=
  ⟨rfl, by decide, by decide,
    shardReconstruct_C1 (fun _ => "h") ⟨0, [], "", 4⟩ [1, 2, 3, 4] rfl
      (by decide) (by decide)⟩


/-- The scan loop returns the first per-shard failure, in delivery
order, interleaving the two checks shard by shard. -/
theorem scanShards_eq_findSome (hashF : List Nat → String) (ec : Int) :
    ∀ sub : List Shard, scanShards hashF ec sub = sub.findSome? (scanCheck hashF ec) := by
  intro sub
  induction sub with
  | nil => rfl
  | cons s rest ih =>
    rw [List.findSome?_cons]
    unfold scanShards scanCheck
    by_cases h1 : s.ChunkIndex ≠ ec
    · rw [if_pos h1, if_pos h1]
    · rw [if_neg h1, if_neg h1]
      by_cases h2 : ¬ VerifyShard hashF s.Data s.Hash
      · rw [if_pos h2, if_pos h2]
      · rw [if_neg h2, if_neg h2]
        exact ih


/-- C2-amended: the precondition checks of `ReconstructChunk`, in the
order the code performs them: too-few-shards first, then non-positive
size, then one pass over the shards in delivery order where each
shard's chunk-index check runs immediately before that same shard's
hash check (first failure wins), and only then the index-range and
duplicate checks of the fill loop; every failure is an error and
produces no output. -/
theorem reconstructChunk_C2 (hashF : List Nat → String) (shards : List Shard)
    (dataSize : Int) :
    (shards.length < DataShards →
      ReconstructChunk hashF shards dataSize
        = .error (.insufficientShards shards.length)) ∧
    (DataShards ≤ shards.length → dataSize ≤ 0 →
      ReconstructChunk hashF shards dataSize = .error .invalidDataSize) ∧
    (∀ e, DataShards ≤ shards.length → 0 < dataSize →
      shards.findSome? (scanCheck hashF ((shards.headD ⟨0, 0, [], "", 0⟩).ChunkIndex))
        = some e →
      ReconstructChunk hashF shards dataSize = .error e) ∧
    (∀ e, DataShards ≤ shards.length → 0 < dataSize →
      shards.findSome? (scanCheck hashF ((shards.headD ⟨0, 0, [], "", 0⟩).ChunkIndex))
        = none →
      fillShards shards (List.replicate TotalShards none) = .error e →
      ReconstructChunk hashF shards dataSize = .error e) := by
  refine ⟨?_, ?_, ?_, ?_⟩
  · intro hlt
    unfold ReconstructChunk
    rw [if_pos hlt]
  · intro hge hds
    unfold ReconstructChunk
    rw [if_neg (by omega), if_pos hds]
  · intro e hge hds hscan
    unfold ReconstructChunk
    rw [if_neg (by omega), if_neg (by omega),
      scanShards_eq_findSome hashF _ shards, hscan]
  · intro e hge hds hscan hfill
    unfold ReconstructChunk
    rw [if_neg (by omega), if_neg (by omega),
      scanShards_eq_findSome hashF _ shards, hscan]
    show (fillShards shards (List.replicate TotalShards none) >>= fun shardData =>
      rsReconstruct shardData >>= fun rows =>
      if rsVerify rows then rsJoin rows dataSize.toNat
      else .error .verifyFailed) = .error e
    rw [hfill]
    rfl


/-- C2-counterexample: the spec claims every chunk-index check runs
before any hash check; in the code the two are interleaved per shard,
so a first shard with a bad hash is reported even though a later shard
belongs to a different chunk. -/
theorem reconstructChunk_C2_counterexample :
    ReconstructChunk (fun _ => "h")
        [⟨0, 0, [], "x", 0⟩, ⟨1, 1, [], "h", 0⟩, ⟨0, 2, [], "h", 0⟩, ⟨0, 3, [], "h", 0⟩] 1
      = .error (.shardVerificationFailed 0) ∧
    (∃ s ∈ ([⟨0, 0, [], "x", 0⟩, ⟨1, 1, [], "h", 0⟩, ⟨0, 2, [], "h", 0⟩,
        ⟨0, 3, [], "h", 0⟩] : List Shard),
      s.ChunkIndex
        ≠ (([⟨0, 0, [], "x", 0⟩, ⟨1, 1, [], "h", 0⟩, ⟨0, 2, [], "h", 0⟩,
            ⟨0, 3, [], "h", 0⟩] : List Shard).headD ⟨0, 0, [], "", 0⟩).ChunkIndex) :=
  ⟨rfl, by decide⟩


theorem reconstructChunk_C2_witness :
    ReconstructChunk (fun _ => "h") [⟨0, 0, [], "h", 0⟩] 5
      = .error (.insufficientShards 1) :=
  (reconstructChunk_C2 (fun _ => "h") [⟨0, 0, [], "h", 0⟩] 5).1 (by decide)


end BTNX
